import Mathlib

/-!
Verification development for the fs-lru-cache repository: a two-tier
key/value cache with an in-memory LRU hot tier (MemoryStore), a sharded
on-disk store with an in-memory index (FileStore), and a coordinator
(FsLruCache) that routes reads memory-first and mirrors writes.

The embedding below follows the bundled revision of the source
(dist/index.cjs, identical in the relevant parts to the synchronous-write
revision of src/cache.ts, src/memory-store.ts, src/file-store.ts and
src/utils.ts), which is the revision the specification describes
(synchronous writes to disk, memory written after a successful disk write).

Modelling conventions:
- JavaScript Map objects become association lists in insertion order
  (head = oldest); Map.set replaces in place, Map.delete removes the
  binding, re-insertion after delete appends at the tail.
- Time is an explicit parameter, in milliseconds.
- The JSON value codec is external to the core (per the specification);
  user values are modelled by the small inductive JVal with an injective
  stringify function and its left inverse.  String escaping is not
  modelled; all concrete witnesses use strings without quotes or
  backslashes, for which the byte sizes agree with JSON.stringify.
- The filesystem is a map from file path to decoded envelope; since a key
  file path is determined by the key hash, paths are identified with
  hashes.  The hash function itself is external (sha256 truncation) and is
  passed as an explicit parameter.
- Filesystem failures (write, rename, unlink) are injected through
  explicit fault parameters, mirroring the try/catch structure of the
  source.
-/

/-- Association list with String keys, in insertion order (head = oldest),
modelling a JavaScript Map. -/
abbrev SDict (α : Type) := List (String × α)

/-- Lookup of the binding for a key (Map.get). -/
def dictGet {α : Type} : SDict α → String → Option α
  | [], _ => none
  | (k', v) :: rest, k => if k' = k then some v else dictGet rest k

/-- Map.set semantics: replace an existing binding in place, otherwise
append at the tail. -/
def dictSet {α : Type} : SDict α → String → α → SDict α
  | [], k, v => [(k, v)]
  | (k', v') :: rest, k, v =>
      if k' = k then (k, v) :: rest else (k', v') :: dictSet rest k v

/-- Map.delete semantics: remove the binding for the key. -/
def dictErase {α : Type} : SDict α → String → SDict α
  | [], _ => []
  | (k', v') :: rest, k =>
      if k' = k then rest else (k', v') :: dictErase rest k

/-- Expiry check from src/utils.ts: an entry with expiresAt null never
expires; otherwise it is expired when Date.now() is strictly past it. -/
def isExpired (expiresAt : Option Nat) (now : Nat) : Bool :=
  match expiresAt with
  | none => false
  | some t => now > t

/-- Expiry comparison used by FileStore.prune and FileStore.ensureSpace
(expiresAt <= now, written out in those loops in the source). -/
def expiresLeq (expiresAt : Option Nat) (now : Nat) : Bool :=
  match expiresAt with
  | none => false
  | some t => t ≤ now

/-- JSON values handled by the external codec, restricted to the shapes the
claims need (null, strings, integers). -/
inductive JVal where
  | jnull
  | jstr (s : String)
  | jnum (n : Int)
deriving Repr, DecidableEq

/-- JSON.stringify for JVal.  String escaping is not modelled (witnesses
use strings without quotes or backslashes). -/
def stringifyV : JVal → String
  | .jnull => "null"
  | .jstr s => "\"" ++ s ++ "\""
  | .jnum n => toString n

/-- JSON.parse on codec output, the left inverse of stringifyV on its
image (the coordinator only ever parses strings produced by stringifyV). -/
def parseV (s : String) : JVal :=
  match s.data with
  | '"' :: rest => .jstr (String.mk rest.dropLast)
  | _ => if s = "null" then .jnull else .jnum ((s.toInt?).getD 0)

/-- Memory entry from src/types.ts: the codec output for the value (not
the envelope), its expiry, and its byte size. -/
structure MemEntry where
  serialized : String
  expiresAt : Option Nat
  size : Nat
deriving Repr, DecidableEq

/-- MemoryStore state from src/memory-store.ts: insertion-ordered map
(LRU at the head) plus the running byte total and the configured bounds.
currentSize is an integer, as in JavaScript. -/
structure MemoryStore where
  cache : SDict MemEntry
  currentSize : Int
  maxItems : Nat
  maxSize : Nat
deriving Repr, DecidableEq

/-- MemoryStore.delete: remove the binding and subtract its size. -/
def MemoryStore.delete (st : MemoryStore) (k : String) : MemoryStore × Bool :=
  match dictGet st.cache k with
  | none => (st, false)
  | some e =>
      ({ st with cache := dictErase st.cache k,
                 currentSize := st.currentSize - (e.size : Int) }, true)

/-- MemoryStore.getValidEntry: lookup that lazily deletes an expired
binding. -/
def MemoryStore.getValidEntry (st : MemoryStore) (k : String) (now : Nat) :
    Option MemEntry × MemoryStore :=
  match dictGet st.cache k with
  | none => (none, st)
  | some e =>
      if isExpired e.expiresAt now then (none, (st.delete k).1)
      else (some e, st)

/-- MemoryStore.get: return the serialized value and promote the entry to
most recently used by re-inserting it at the tail. -/
def MemoryStore.get (st : MemoryStore) (k : String) (now : Nat) :
    Option String × MemoryStore :=
  match st.getValidEntry k now with
  | (none, st1) => (none, st1)
  | (some e, st1) =>
      (some e.serialized,
       { st1 with cache := dictErase st1.cache k ++ [(k, e)] })

/-- MemoryStore.needsEviction: eviction is needed while the store is
non-empty and either the item bound or the byte bound would be exceeded. -/
def MemoryStore.needsEviction (st : MemoryStore) (newSize : Nat) : Bool :=
  decide (0 < st.cache.length) &&
    (decide (st.cache.length ≥ st.maxItems) ||
     decide (st.currentSize + (newSize : Int) > (st.maxSize : Int)))

/-- MemoryStore.evictOne: first pass scans insertion order for an expired
entry and removes it; otherwise removes the head (oldest). -/
def MemoryStore.evictOne (st : MemoryStore) (now : Nat) : MemoryStore :=
  match st.cache.find? (fun p => isExpired p.2.expiresAt now) with
  | some p => (st.delete p.1).1
  | none =>
      match st.cache with
      | [] => st
      | (k, _) :: _ => (st.delete k).1

theorem dictGet_isSome_of_mem {α : Type} {l : SDict α} {p : String × α}
    (h : p ∈ l) : (dictGet l p.1).isSome := by
  induction h with
  | head rest => simp [dictGet]
  | tail q _ ih =>
      obtain ⟨k', v'⟩ := q
      by_cases hk : k' = p.1 <;> simp [dictGet, hk, ih]

theorem dictErase_length_lt {α : Type} {l : SDict α} {k : String}
    (h : (dictGet l k).isSome) : (dictErase l k).length < l.length := by
  induction l with
  | nil => simp [dictGet] at h
  | cons q rest ih =>
      obtain ⟨k', v'⟩ := q
      by_cases hk : k' = k
      · simp [dictErase, hk]
      · simp [dictGet, hk] at h
        simp [dictErase, hk, Nat.succ_lt_succ (ih h)]

theorem MemoryStore.delete_length_lt {st : MemoryStore} {k : String}
    (h : (dictGet st.cache k).isSome) :
    ((st.delete k).1).cache.length < st.cache.length := by
  unfold MemoryStore.delete
  cases hg : dictGet st.cache k with
  | none => simp [hg] at h
  | some e => simpa [hg] using dictErase_length_lt (by simp [hg])

theorem MemoryStore.evictOne_length_lt {st : MemoryStore} (now : Nat)
    (h : st.cache ≠ []) :
    ((st.evictOne now)).cache.length < st.cache.length := by
  unfold MemoryStore.evictOne
  cases hf : st.cache.find? (fun p => isExpired p.2.expiresAt now) with
  | some p =>
      exact MemoryStore.delete_length_lt
        (dictGet_isSome_of_mem (List.mem_of_find?_eq_some hf))
  | none =>
      cases hc : st.cache with
      | nil => exact absurd hc h
      | cons q rest =>
          obtain ⟨k, e⟩ := q
          have : (dictGet st.cache k).isSome := by simp [hc, dictGet]
          simpa [hc] using MemoryStore.delete_length_lt this

/-- Fuelled form of the eviction loop in MemoryStore.set.  Each eviction
on a non-empty store shrinks it by one entry, so any fuel above the store
size makes the fuelled form agree with the unbounded loop of the source
(MemoryStore.evictLoop_eq below gives the loop equation). -/
def memEvictLoopF : Nat → MemoryStore → Nat → Nat → MemoryStore
  | 0, st, _, _ => st
  | fuel + 1, st, newSize, now =>
      if st.needsEviction newSize then memEvictLoopF fuel (st.evictOne now) newSize now
      else st

/-- Eviction loop in MemoryStore.set: evict one entry at a time while
eviction is needed. -/
def MemoryStore.evictLoop (st : MemoryStore) (newSize : Nat) (now : Nat) :
    MemoryStore :=
  memEvictLoopF (st.cache.length + 1) st newSize now

theorem MemoryStore.needsEviction_nonempty {st : MemoryStore} {newSize : Nat}
    (h : st.needsEviction newSize) : st.cache ≠ [] := by
  intro hc
  unfold MemoryStore.needsEviction at h
  simp [hc] at h

theorem memEvictLoopF_congr :
    ∀ (f1 : Nat) (f2 : Nat) (st : MemoryStore) (newSize now : Nat),
      st.cache.length < f1 → st.cache.length < f2 →
      memEvictLoopF f1 st newSize now = memEvictLoopF f2 st newSize now := by
  intro f1
  induction f1 with
  | zero => intro f2 st newSize now h1; omega
  | succ f ih =>
      intro f2 st newSize now h1 h2
      cases f2 with
      | zero => omega
      | succ g =>
          simp only [memEvictLoopF]
          by_cases hn : st.needsEviction newSize
          · simp only [hn, if_pos]
            have hlt := MemoryStore.evictOne_length_lt now
              (MemoryStore.needsEviction_nonempty hn)
            refine ih g _ newSize now ?_ ?_ <;> omega
          · simp [hn]

theorem MemoryStore.evictLoop_eq (st : MemoryStore) (newSize now : Nat) :
    st.evictLoop newSize now =
      if st.needsEviction newSize then
        MemoryStore.evictLoop (st.evictOne now) newSize now
      else st := by
  by_cases hn : st.needsEviction newSize
  · rw [if_pos hn]
    have hlt := MemoryStore.evictOne_length_lt now
      (MemoryStore.needsEviction_nonempty hn)
    show memEvictLoopF (st.cache.length + 1) st newSize now =
      memEvictLoopF ((st.evictOne now).cache.length + 1) (st.evictOne now) newSize now
    conv_lhs => simp only [memEvictLoopF, hn]
    refine memEvictLoopF_congr _ _ _ newSize now ?_ ?_ <;> omega
  · rw [if_neg hn]
    show memEvictLoopF (st.cache.length + 1) st newSize now = st
    simp [memEvictLoopF, hn]

/-- MemoryStore.set: delete any existing binding first, evict while space
is needed, then insert at the tail and add the size. -/
def MemoryStore.set (st : MemoryStore) (k : String) (serialized : String)
    (expiresAt : Option Nat) (now : Nat) : MemoryStore :=
  let st0 := if (dictGet st.cache k).isSome then (st.delete k).1 else st
  let size := serialized.utf8ByteSize
  let st1 := MemoryStore.evictLoop st0 size now
  { st1 with cache := st1.cache ++ [(k, { serialized := serialized, expiresAt := expiresAt, size := size })],
             currentSize := st1.currentSize + (size : Int) }

/-- MemoryStore.setExpiry: mutate the expiry of a live entry in place. -/
def MemoryStore.setExpiry (st : MemoryStore) (k : String)
    (expiresAt : Option Nat) (now : Nat) : MemoryStore × Bool :=
  match st.getValidEntry k now with
  | (none, st1) => (st1, false)
  | (some e, st1) =>
      ({ st1 with cache := dictSet st1.cache k { e with expiresAt := expiresAt } }, true)

/-- Index entry of the FileStore (src/file-store.ts): key hash, expiry,
last access time and on-disk byte size. -/
structure IndexEntry where
  hash : String
  expiresAt : Option Nat
  lastAccessedAt : Nat
  size : Nat
deriving Repr, DecidableEq

/-- Decoded on-disk envelope (src/types.ts CacheEntry): the full key, the
user value and the expiry.  Files are stored by envelope since the codec
round-trips (spec invariant 6); the byte size of the encoded form is
tracked separately. -/
structure Envelope where
  key : String
  value : JVal
  expiresAt : Option Nat
deriving Repr, DecidableEq

/-- FileStore state: index (key to metadata), reverse hash-to-key map,
running byte total, the filesystem contents (path = hash), and the byte
bound.  totalSize is an integer, as in JavaScript. -/
structure FileStore where
  index : SDict IndexEntry
  hashToKey : SDict String
  totalSize : Int
  disk : SDict Envelope
  maxSize : Nat
deriving Repr, DecidableEq

/-- Failure modes injected into the atomic write (temp write fails, or the
rename fails). -/
inductive FsFault where
  | noFault
  | writeFail
  | renameFail
deriving Repr, DecidableEq

/-- FileStore.atomicWrite: write the content to a fresh temp path, then
rename it onto the target.  On either failure the temp file is unlinked
(best effort) and the failure is reported; the Bool is the success flag. -/
def atomicWrite (disk : SDict Envelope) (path : String) (env : Envelope)
    (temp : String) (fault : FsFault) : Bool × SDict Envelope :=
  match fault with
  | .noFault =>
      (true, dictSet (dictErase (dictSet disk temp env) temp) path env)
  | .writeFail =>
      (false, dictErase disk temp)
  | .renameFail =>
      (false, dictErase (dictSet disk temp env) temp)

/-- FileStore.evictKey: remove the entry from the index, the reverse map
and the running total, fire the eviction callback (returned as the third
component), and unlink the file ignoring failures.  Returns the freed
size. -/
def FileStore.evictKey (st : FileStore) (k : String) :
    FileStore × Int × List String :=
  match dictGet st.index k with
  | none => (st, 0, [])
  | some e =>
      ({ st with totalSize := st.totalSize - (e.size : Int),
                 index := dictErase st.index k,
                 hashToKey := dictErase st.hashToKey e.hash,
                 disk := dictErase st.disk e.hash },
       (e.size : Int), [k])

/-- First phase of FileStore.ensureSpace: walk the snapshot of expired
keys, stopping once the freed total reaches the target. -/
def FileStore.evictExpiredList (st : FileStore) (ks : List String)
    (target freed : Int) (acc : List String) :
    FileStore × Int × List String :=
  match ks with
  | [] => (st, freed, acc)
  | k :: rest =>
      if freed ≥ target then (st, freed, acc)
      else
        let r := st.evictKey k
        FileStore.evictExpiredList r.1 rest target (freed + r.2.1) (acc ++ r.2.2)

/-- FileStore.findOldestKey: first key with the minimal lastAccessedAt
(the source keeps the first minimum because it compares strictly). -/
def findOldestAux : SDict IndexEntry → Option (String × Nat) → Option String
  | [], acc =>
      match acc with
      | none => none
      | some (bk, _) => some bk
  | (k, e) :: rest, acc =>
      match acc with
      | none => findOldestAux rest (some (k, e.lastAccessedAt))
      | some (bk, bt) =>
          if e.lastAccessedAt < bt then findOldestAux rest (some (k, e.lastAccessedAt))
          else findOldestAux rest (some (bk, bt))

/-- Wrapper for findOldestAux starting from no candidate. -/
def FileStore.findOldestKey (st : FileStore) : Option String :=
  findOldestAux st.index none

theorem findOldestAux_mem :
    ∀ (l : SDict IndexEntry) (acc : Option (String × Nat)) (k : String),
      findOldestAux l acc = some k →
      (dictGet l k).isSome ∨ (∃ t, acc = some (k, t)) := by
  intro l
  induction l with
  | nil =>
      intro acc k h
      cases acc with
      | none => simp [findOldestAux] at h
      | some b =>
          obtain ⟨bk, bt⟩ := b
          simp [findOldestAux] at h
          exact Or.inr ⟨bt, by simp [h]⟩
  | cons q rest ih =>
      intro acc k h
      obtain ⟨k', e⟩ := q
      cases acc with
      | none =>
          simp only [findOldestAux] at h
          rcases ih _ _ h with hs | ⟨t, ht⟩
          · by_cases hk : k' = k <;> simp [dictGet, hk, hs]
          · simp at ht
            left
            simp [dictGet, ht.1]
      | some b =>
          obtain ⟨bk, bt⟩ := b
          simp only [findOldestAux] at h
          by_cases hlt : e.lastAccessedAt < bt
          · simp only [if_pos hlt] at h
            rcases ih _ _ h with hs | ⟨t, ht⟩
            · by_cases hk : k' = k <;> simp [dictGet, hk, hs]
            · simp at ht
              left
              simp [dictGet, ht.1]
          · simp only [if_neg hlt] at h
            rcases ih _ _ h with hs | ⟨t, ht⟩
            · by_cases hk : k' = k <;> simp [dictGet, hk, hs]
            · simp at ht
              right
              exact ⟨bt, by simp [ht.1]⟩

theorem FileStore.findOldestKey_isSome {st : FileStore} {k : String}
    (h : st.findOldestKey = some k) : (dictGet st.index k).isSome := by
  rcases findOldestAux_mem st.index none k h with hs | ⟨t, ht⟩
  · exact hs
  · cases ht

theorem FileStore.evictKey_length_lt {st : FileStore} {k : String}
    (h : (dictGet st.index k).isSome) :
    ((st.evictKey k).1).index.length < st.index.length := by
  unfold FileStore.evictKey
  cases hg : dictGet st.index k with
  | none => simp [hg] at h
  | some e => simpa [hg] using dictErase_length_lt (by simp [hg])

/-- Fuelled form of the second phase of FileStore.ensureSpace.  Each
eviction of a found key shrinks the index by one entry, so any fuel above
the index size makes the fuelled form agree with the unbounded loop of the
source (FileStore.evictOldestLoop_eq below gives the loop equation). -/
def fsEvictOldestLoopF : Nat → FileStore → Int → Int → List String →
    FileStore × Int × List String
  | 0, st, _, freed, acc => (st, freed, acc)
  | fuel + 1, st, target, freed, acc =>
      if freed < target ∧ st.index ≠ [] then
        match st.findOldestKey with
        | none => (st, freed, acc)
        | some k =>
            let r := st.evictKey k
            fsEvictOldestLoopF fuel r.1 target (freed + r.2.1) (acc ++ r.2.2)
      else (st, freed, acc)

/-- Second phase of FileStore.ensureSpace: while the freed total is short
of the target and the index is non-empty, evict the least recently
accessed entry. -/
def FileStore.evictOldestLoop (st : FileStore) (target freed : Int)
    (acc : List String) : FileStore × Int × List String :=
  fsEvictOldestLoopF (st.index.length + 1) st target freed acc

theorem fsEvictOldestLoopF_congr :
    ∀ (f1 : Nat) (f2 : Nat) (st : FileStore) (target freed : Int)
      (acc : List String),
      st.index.length < f1 → st.index.length < f2 →
      fsEvictOldestLoopF f1 st target freed acc =
        fsEvictOldestLoopF f2 st target freed acc := by
  intro f1
  induction f1 with
  | zero => intro f2 st target freed acc h1; omega
  | succ f ih =>
      intro f2 st target freed acc h1 h2
      cases f2 with
      | zero => omega
      | succ g =>
          simp only [fsEvictOldestLoopF]
          by_cases hc : freed < target ∧ st.index ≠ []
          · rw [if_pos hc, if_pos hc]
            cases hf : st.findOldestKey with
            | none => rfl
            | some k =>
                have hlt := FileStore.evictKey_length_lt
                  (FileStore.findOldestKey_isSome hf)
                dsimp only
                refine ih g _ target _ _ ?_ ?_ <;> omega
          · simp [hc]

theorem FileStore.evictOldestLoop_eq (st : FileStore) (target freed : Int)
    (acc : List String) :
    st.evictOldestLoop target freed acc =
      (if freed < target ∧ st.index ≠ [] then
        match st.findOldestKey with
        | none => (st, freed, acc)
        | some k =>
            let r := st.evictKey k
            FileStore.evictOldestLoop r.1 target (freed + r.2.1) (acc ++ r.2.2)
      else (st, freed, acc)) := by
  by_cases hc : freed < target ∧ st.index ≠ []
  · rw [if_pos hc]
    cases hf : st.findOldestKey with
    | none =>
        show fsEvictOldestLoopF (st.index.length + 1) st target freed acc = (st, freed, acc)
        simp [fsEvictOldestLoopF, hc, hf]
    | some k =>
        have hlt := FileStore.evictKey_length_lt
          (FileStore.findOldestKey_isSome hf)
        show fsEvictOldestLoopF (st.index.length + 1) st target freed acc =
          fsEvictOldestLoopF ((st.evictKey k).1.index.length + 1) (st.evictKey k).1 target
            (freed + (st.evictKey k).2.1) (acc ++ (st.evictKey k).2.2)
        have hstep : fsEvictOldestLoopF (st.index.length + 1) st target freed acc =
            fsEvictOldestLoopF st.index.length (st.evictKey k).1 target
              (freed + (st.evictKey k).2.1) (acc ++ (st.evictKey k).2.2) := by
          conv_lhs => simp only [fsEvictOldestLoopF]
          rw [if_pos hc, hf]
        rw [hstep]
        refine fsEvictOldestLoopF_congr _ _ _ target _ _ ?_ ?_ <;> omega
  · rw [if_neg hc]
    show fsEvictOldestLoopF (st.index.length + 1) st target freed acc = (st, freed, acc)
    simp [fsEvictOldestLoopF, hc]

/-- FileStore.ensureSpace: no work if the new bytes fit; otherwise evict
expired entries first, then least recently accessed ones, until the
overshoot is freed.  Returns the store and the eviction callbacks fired,
in order. -/
def FileStore.ensureSpace (st : FileStore) (needed : Nat) (now : Nat) :
    FileStore × List String :=
  if st.totalSize + (needed : Int) ≤ (st.maxSize : Int) then (st, [])
  else
    let target := st.totalSize + (needed : Int) - (st.maxSize : Int)
    let expiredKeys :=
      (st.index.filter (fun p => expiresLeq p.2.expiresAt now)).map Prod.fst
    let r1 := st.evictExpiredList expiredKeys target 0 []
    let r2 := FileStore.evictOldestLoop r1.1 target r1.2.1 r1.2.2
    (r2.1, r2.2.2)

/-- FileStore.set: subtract and unmap an existing binding (the index entry
itself is left in place, as in the source), evict a colliding owner of the
same hash (firing its callback), ensure space, write atomically, then
install the new index entry.  Returns the success flag, the new store, and
the eviction callbacks fired. -/
def FileStore.set (st : FileStore) (hashFn : String → String) (k : String)
    (v : JVal) (expiresAt : Option Nat) (content : String) (now : Nat)
    (temp : String) (fault : FsFault) : Bool × FileStore × List String :=
  let size := content.utf8ByteSize
  let h := hashFn k
  let st1 :=
    match dictGet st.index k with
    | some ex =>
        { st with totalSize := st.totalSize - (ex.size : Int),
                  hashToKey := dictErase st.hashToKey ex.hash }
    | none => st
  let step2 :=
    match dictGet st1.hashToKey h with
    | some ck =>
        if ck ≠ k then
          match dictGet st1.index ck with
          | some ce =>
              ({ st1 with totalSize := st1.totalSize - (ce.size : Int),
                          index := dictErase st1.index ck }, [ck])
          | none => (st1, ([] : List String))
        else (st1, [])
    | none => (st1, [])
  let r3 := step2.1.ensureSpace size now
  let w := atomicWrite r3.1.disk h { key := k, value := v, expiresAt := expiresAt } temp fault
  if w.1 then
    (true,
     { r3.1 with disk := w.2,
                 index := dictSet r3.1.index k
                   { hash := h, expiresAt := expiresAt, lastAccessedAt := now, size := size },
                 hashToKey := dictSet r3.1.hashToKey h k,
                 totalSize := r3.1.totalSize + (size : Int) },
     step2.2 ++ r3.2)
  else
    (false, { r3.1 with disk := w.2 }, step2.2 ++ r3.2)

/-- FileStore.delete: remove the index entry, reverse mapping and size
first, then unlink the file; the returned flag is true only if the unlink
succeeded (the unlink fails when the file is absent or the filesystem
reports an error, injected by unlinkFault). -/
def FileStore.delete (st : FileStore) (k : String) (unlinkFault : Bool) :
    Bool × FileStore :=
  match dictGet st.index k with
  | none => (false, st)
  | some e =>
      let st1 :=
        { st with totalSize := st.totalSize - (e.size : Int),
                  index := dictErase st.index k,
                  hashToKey := dictErase st.hashToKey e.hash }
      if !unlinkFault && (dictGet st.disk e.hash).isSome then
        (true, { st1 with disk := dictErase st1.disk e.hash })
      else (false, st1)

/-- FileStore.getValidIndexEntry: index lookup that lazily deletes an
expired entry (through FileStore.delete, which fires no callback). -/
def FileStore.getValidIndexEntry (st : FileStore) (k : String) (now : Nat) :
    Option IndexEntry × FileStore :=
  match dictGet st.index k with
  | none => (none, st)
  | some e =>
      if isExpired e.expiresAt now then (none, (st.delete k false).2)
      else (some e, st)

/-- FileStore.readCacheFile: read and decode the entry file.  A missing or
unreadable file drops the entry and corrects totalSize; a decoded envelope
whose key differs from the requested key (stale hash entry) is dropped
from the index only. -/
def FileStore.readCacheFile (st : FileStore) (k : String) (e : IndexEntry) :
    Option Envelope × FileStore :=
  match dictGet st.disk e.hash with
  | none =>
      (none, { st with totalSize := st.totalSize - (e.size : Int),
                       index := dictErase st.index k,
                       hashToKey := dictErase st.hashToKey e.hash })
  | some env =>
      if env.key ≠ k then (none, { st with index := dictErase st.index k })
      else (some env, st)

/-- FileStore.get: valid index lookup, file read, and on success an
in-place update of lastAccessedAt. -/
def FileStore.get (st : FileStore) (k : String) (now : Nat) :
    Option Envelope × FileStore :=
  match st.getValidIndexEntry k now with
  | (none, st1) => (none, st1)
  | (some e, st1) =>
      match st1.readCacheFile k e with
      | (none, st2) => (none, st2)
      | (some env, st2) =>
          (some env,
           { st2 with index := dictSet st2.index k { e with lastAccessedAt := now } })

/-- Coordinator state from src/cache.ts (FsLruCache): the two stores, the
per-value memory eligibility bound, the default TTL in seconds, the
optional namespace and the hit/miss counters.  The in-flight table and the
debounced touch timers are modelled separately (single-flight model
below); timers do not affect any claim. -/
structure Cache where
  memory : MemoryStore
  files : FileStore
  maxMemorySize : Nat
  defaultTtl : Option Nat
  nspace : Option String
  hits : Nat
  misses : Nat
deriving Repr, DecidableEq

/-- FsLruCache.prefixKey: prepend the namespace (an empty namespace string
is falsy in the source and applies no prefix). -/
def Cache.prefixKey (st : Cache) (k : String) : String :=
  match st.nspace with
  | some ns => if ns = "" then k else ns ++ ":" ++ k
  | none => k

/-- FsLruCache.resolveTtl: absent TTL falls back to defaultTtl (0 and
absent defaults are falsy), an explicit 0 disables expiry, a positive TTL
is converted from seconds to milliseconds. -/
def Cache.resolveTtl (st : Cache) (ttl : Option Nat) : Option Nat :=
  match ttl with
  | none =>
      match st.defaultTtl with
      | some d => if d = 0 then none else some (d * 1000)
      | none => none
  | some t => if t = 0 then none else some (t * 1000)

/-- Eviction upcall wiring from the FsLruCache constructor: each key the
FileStore evicts is removed from memory (the debounced-touch cancellation
has no observable effect here). -/
def Cache.applyEvict (st : Cache) : List String → Cache
  | [] => st
  | k :: rest =>
      Cache.applyEvict { st with memory := (st.memory.delete k).1 } rest

/-- Bytes of the JSON envelope string the coordinator builds for the disk
write (the literal template from FsLruCache.set, braces written via
character codes). -/
def envelopeString (pk : String) (v : JVal) (expiresAt : Option Nat) : String :=
  String.singleton (Char.ofNat 123) ++ "\"key\":" ++ stringifyV (JVal.jstr pk) ++
    ",\"value\":" ++ stringifyV v ++ ",\"expiresAt\":" ++
    (match expiresAt with
     | none => "null"
     | some t => toString t) ++ String.singleton (Char.ofNat 125)

/-- FsLruCache.get: memory first (parse the serialized bytes on a hit),
then disk with promotion into memory when the re-encoded value fits.  The
JavaScript return value null stands both for a miss and for a stored null;
it is modelled by JVal.jnull. -/
def Cache.get (st : Cache) (k : String) (now : Nat) : JVal × Cache :=
  let pk := st.prefixKey k
  match st.memory.get pk now with
  | (some s, mem1) =>
      (parseV s, { st with memory := mem1, hits := st.hits + 1 })
  | (none, mem1) =>
      let st1 := { st with memory := mem1 }
      match st1.files.get pk now with
      | (some env, files2) =>
          let serialized := stringifyV env.value
          let mem2 :=
            if serialized.utf8ByteSize ≤ st1.maxMemorySize then
              st1.memory.set pk serialized env.expiresAt now
            else st1.memory
          (env.value, { st1 with files := files2, memory := mem2, hits := st1.hits + 1 })
      | (none, files2) =>
          (JVal.jnull, { st1 with files := files2, misses := st1.misses + 1 })

/-- FsLruCache.set: resolve the TTL, serialize the value once, write the
envelope to disk first (applying eviction upcalls to memory), and only on
a successful disk write store the value bytes in memory when they fit.
The Bool is the success flag (false = the disk write error propagates). -/
def Cache.set (st : Cache) (hashFn : String → String) (k : String) (v : JVal)
    (ttl : Option Nat) (now : Nat) (temp : String) (fault : FsFault) :
    Bool × Cache :=
  let pk := st.prefixKey k
  let expiresAt := (st.resolveTtl ttl).map (fun ms => now + ms)
  let valueSerialized := stringifyV v
  let valueSize := valueSerialized.utf8ByteSize
  let content := envelopeString pk v expiresAt
  let r := st.files.set hashFn pk v expiresAt content now temp fault
  let st1 := Cache.applyEvict { st with files := r.2.1 } r.2.2
  if r.1 then
    (true,
     if valueSize ≤ st1.maxMemorySize then
       { st1 with memory := st1.memory.set pk valueSerialized expiresAt now }
     else st1)
  else (false, st1)

/-- FsLruCache.getOrSet for a single caller with an empty in-flight table:
fast-path get, re-check inside the guarded section, then run the supplied
computation and cache its result.  The computation outcome is passed as an
Except value (error = the function threw).  The final Bool records whether
the computation was invoked. -/
def Cache.getOrSet (st : Cache) (hashFn : String → String) (k : String)
    (fres : Except Unit JVal) (ttl : Option Nat) (now : Nat) (temp : String) :
    Except Unit JVal × Cache × Bool :=
  let r0 := st.get k now
  if r0.1 ≠ JVal.jnull then (Except.ok r0.1, r0.2, false)
  else
    let r1 := r0.2.get k now
    if r1.1 ≠ JVal.jnull then (Except.ok r1.1, r1.2, false)
    else
      match fres with
      | .error e => (.error e, r1.2, true)
      | .ok v =>
          let r2 := r1.2.set hashFn k v ttl now temp .noFault
          (.ok v, r2.2, true)

/-- Events at the single-flight table for one key: a caller reaching
withStampedeProtection (enter) and the shared computation settling
(settle).  The check of the table and the insertion of the new promise are
adjacent synchronous steps in the source, hence one atomic event. -/
inductive SFEvent where
  | enter
  | settle
deriving Repr, DecidableEq

/-- State of the single-flight table for one key: the identifier of the
computation currently in flight (if any), how many computations have been
started, and for each caller, in arrival order, the identifier of the
computation that caller awaits. -/
structure SFState where
  cur : Option Nat
  started : Nat
  joined : List Nat
deriving Repr, DecidableEq

/-- Transition of the single-flight table (FsLruCache
withStampedeProtection): an entering caller joins the stored computation
if one exists, otherwise starts a new one and stores it; settling removes
the stored entry (the finally block). -/
def sfStep (s : SFState) : SFEvent → SFState
  | .enter =>
      match s.cur with
      | some id => { s with joined := s.joined ++ [id] }
      | none =>
          { cur := some s.started, started := s.started + 1,
            joined := s.joined ++ [s.started] }
  | .settle => { s with cur := none }

/-- Run of the single-flight table over a list of events. -/
def sfRun (s : SFState) : List SFEvent → SFState
  | [] => s
  | e :: rest => sfRun (sfStep s e) rest

/-- Initial single-flight state: no computation in flight. -/
def sfInit : SFState := { cur := none, started := 0, joined := [] }

/-- Line terminators, which the JavaScript regex dot does not match. -/
def isLineTerm (c : Char) : Bool :=
  c = Char.ofNat 10 || c = Char.ofNat 13 || c = Char.ofNat 0x2028 || c = Char.ofNat 0x2029

/-- Regex source tokens produced by compilePattern from one pattern
character: every character in the escape class of the source
(dot + ^ $ braces parens pipe brackets backslash) is escaped and becomes a
literal, a star becomes dot-star, and a question mark is NOT in the escape
class, so it survives as a bare regex quantifier. -/
inductive Tok where
  | lit (c : Char)
  | star
  | quest
deriving Repr, DecidableEq

/-- Token for a single collapsed pattern character. -/
def charTok (c : Char) : Tok :=
  if c = '*' then .star else if c = '?' then .quest else .lit c

/-- Atoms of the compiled regex: a literal character, an optional literal
(a literal followed by the question quantifier), and dot-star. -/
inductive RAtom where
  | lit (c : Char)
  | optLit (c : Char)
  | star
deriving Repr, DecidableEq

/-- Atom for a single collapsed pattern character of a question-free
pattern. -/
def charAtom (c : Char) : RAtom :=
  if c = '*' then .star else .lit c

/-- Collapse runs of stars to a single star (the first replace in
compilePattern). -/
def collapseStars : List Char → List Char
  | [] => []
  | [c] => [c]
  | c1 :: c2 :: rest =>
      if c1 = '*' && c2 = '*' then collapseStars (c2 :: rest)
      else c1 :: collapseStars (c2 :: rest)

/-- Attach one token to a reversed atom list, resolving the question
quantifier against the preceding atom exactly as the regex engine reads
the generated source: a question after a literal makes it optional, after
dot-star or after an optional it only switches to the lazy variant (same
accepted language), and with no preceding atom the regex is invalid
(none). -/
def pushTok (acc : Option (List RAtom)) (t : Tok) : Option (List RAtom) :=
  match acc with
  | none => none
  | some as =>
      match t with
      | .lit c => some (.lit c :: as)
      | .star => some (.star :: as)
      | .quest =>
          match as with
          | [] => none
          | .lit c :: rest => some (.optLit c :: rest)
          | .optLit c :: rest => some (.optLit c :: rest)
          | .star :: rest => some (.star :: rest)

/-- Atoms of the compiled regex for a collapsed token list. -/
def toAtoms (ts : List Tok) : Option (List RAtom) :=
  (ts.foldl pushTok (some [])).map List.reverse

/-- Fuelled acceptance of an anchored atom sequence, with the JavaScript
dot semantics: dot-star consumes any characters except line terminators.
Every recursive call shrinks the total length of the two arguments, so
any fuel above that total makes the fuelled form agree with the unbounded
recursion (amatch_congr below). -/
def amatchF : Nat → List RAtom → List Char → Bool
  | 0, _, _ => false
  | fuel + 1, as, s =>
      match as, s with
      | [], [] => true
      | [], _ :: _ => false
      | .lit _ :: _, [] => false
      | .lit c :: as, x :: xs => x = c && amatchF fuel as xs
      | .optLit _ :: as, [] => amatchF fuel as []
      | .optLit c :: as, x :: xs =>
          amatchF fuel as (x :: xs) || (x = c && amatchF fuel as xs)
      | .star :: as, [] => amatchF fuel as []
      | .star :: as, x :: xs =>
          amatchF fuel as (x :: xs) || (!isLineTerm x && amatchF fuel (.star :: as) xs)

/-- Acceptance of an anchored atom sequence. -/
def amatch (as : List RAtom) (s : List Char) : Bool :=
  amatchF (as.length + s.length + 1) as s

/-- Compiled pattern: the star pattern compiles to the accept-all matcher
without a regex; any other pattern compiles to an anchored atom sequence
(none = the generated regex source is invalid). -/
inductive CompiledP where
  | all
  | re (atoms : List RAtom)
deriving Repr, DecidableEq

/-- compilePattern from src/utils.ts. -/
def compilePattern (p : String) : Option CompiledP :=
  if p = "*" then some .all
  else (toAtoms ((collapseStars p.data).map charTok)).map CompiledP.re

/-- matchPattern from src/utils.ts, for a compiled pattern. -/
def matchPattern (k : String) : CompiledP → Bool
  | .all => true
  | .re as => amatch as k.data

/-- Glob semantics as the claim states it: the key is obtained from the
pattern by replacing each star with an arbitrary (possibly empty)
substring, all other characters literal, anchored at both ends.  This
definition follows the specification wording and is compared against the
compiled matcher. -/
def globSpecF : Nat → List Char → List Char → Bool
  | 0, _, _ => false
  | fuel + 1, p, s =>
      match p, s with
      | [], [] => true
      | [], _ :: _ => false
      | c :: p, [] => if c = '*' then globSpecF fuel p [] else false
      | c :: p, x :: xs =>
          if c = '*' then globSpecF fuel p (x :: xs) || globSpecF fuel (c :: p) xs
          else x = c && globSpecF fuel p xs

/-- Wrapper for globSpecF with sufficient fuel. -/
def globSpec (p : List Char) (s : List Char) : Bool :=
  globSpecF (p.length + s.length + 1) p s

/-- Amended glob semantics: as globSpec, except that a star stands for an
arbitrary (possibly empty) substring of non-line-terminator characters,
matching the JavaScript dot. -/
def globSpecNoNlF : Nat → List Char → List Char → Bool
  | 0, _, _ => false
  | fuel + 1, p, s =>
      match p, s with
      | [], [] => true
      | [], _ :: _ => false
      | c :: p, [] => if c = '*' then globSpecNoNlF fuel p [] else false
      | c :: p, x :: xs =>
          if c = '*' then
            globSpecNoNlF fuel p (x :: xs) || (!isLineTerm x && globSpecNoNlF fuel (c :: p) xs)
          else x = c && globSpecNoNlF fuel p xs

/-- Wrapper for globSpecNoNlF with sufficient fuel. -/
def globSpecNoNl (p : List Char) (s : List Char) : Bool :=
  globSpecNoNlF (p.length + s.length + 1) p s

deriving instance DecidableEq for Except

/-- Identity hash, a legitimate instantiation of the external key-hash
parameter for concrete executions without collisions. -/
def idHash : String → String := fun s => s

/-- Empty FileStore with the given byte bound. -/
def fsEmpty (m : Nat) : FileStore :=
  { index := [], hashToKey := [], totalSize := 0, disk := [], maxSize := m }

/-- Sum of the size fields over the index, the quantity the spec equates
with totalSize. -/
def indexSizeSum : SDict IndexEntry → Int
  | [] => 0
  | (_, e) :: rest => (e.size : Int) + indexSizeSum rest

/-- Sum of the size fields over the memory cache, the quantity the spec
equates with currentSize. -/
def memSizeSum : SDict MemEntry → Int
  | [] => 0
  | (_, e) :: rest => (e.size : Int) + memSizeSum rest

theorem mem_keys_unique {α : Type} {l : SDict α} {p q : String × α}
    (hnd : (l.map Prod.fst).Nodup) (hp : p ∈ l) (hq : q ∈ l)
    (hk : p.1 = q.1) : p = q := by
  induction l with
  | nil => cases hp
  | cons r rest ih =>
      simp only [List.map_cons, List.nodup_cons] at hnd
      rw [List.mem_cons] at hp hq
      rcases hp with hp | hp <;> rcases hq with hq | hq
      · rw [hp, hq]
      · exfalso
        exact hnd.1 (by rw [hp] at hk; rw [hk]; exact List.mem_map_of_mem Prod.fst hq)
      · exfalso
        exact hnd.1 (by rw [hq] at hk; rw [← hk]; exact List.mem_map_of_mem Prod.fst hp)
      · exact ih hnd.2 hp hq

theorem mem_dictErase_of_ne {α : Type} {l : SDict α} {q : String × α}
    {k : String} (hq : q ∈ l) (hne : q.1 ≠ k) : q ∈ dictErase l k := by
  induction l with
  | nil => cases hq
  | cons r rest ih =>
      obtain ⟨k', v'⟩ := r
      by_cases hk : k' = k
      · simp only [dictErase, if_pos hk]
        rw [List.mem_cons] at hq
        rcases hq with hq | hq
        · exfalso; rw [hq] at hne; exact hne hk
        · exact hq
      · simp only [dictErase, if_neg hk]
        rw [List.mem_cons] at hq
        rcases hq with hq | hq
        · rw [hq]; exact List.mem_cons_self _ _
        · exact List.mem_cons_of_mem _ (ih hq)

theorem dictGet_eq_some_of_mem_nodup {α : Type} {l : SDict α}
    {p : String × α} (hnd : (l.map Prod.fst).Nodup) (hp : p ∈ l) :
    dictGet l p.1 = some p.2 := by
  induction l with
  | nil => cases hp
  | cons r rest ih =>
      obtain ⟨k', v'⟩ := r
      simp only [List.map_cons, List.nodup_cons] at hnd
      rw [List.mem_cons] at hp
      rcases hp with hp | hp
      · rw [hp]; simp [dictGet]
      · have hne : k' ≠ p.1 := by
          intro he
          exact hnd.1 (he ▸ List.mem_map_of_mem Prod.fst hp)
        simp only [dictGet, if_neg hne]
        exact ih hnd.2 hp

/-- C6: whenever the MemoryStore must evict to make room during set, each
single eviction first scans insertion order for an expired entry: if one
exists, the first such entry is the one removed and every live entry
survives; only when no entry is expired is the head (oldest in insertion
order) removed.  So an expired entry is always evicted before any live
cold one. -/
theorem C6_memory_eviction_prefers_expired (st : MemoryStore) (now : Nat)
    (hkeys : (st.cache.map Prod.fst).Nodup) :
    (∀ p, st.cache.find? (fun q => isExpired q.2.expiresAt now) = some p →
        p ∈ st.cache ∧ isExpired p.2.expiresAt now = true ∧
        (st.evictOne now).cache = dictErase st.cache p.1 ∧
        ∀ q ∈ st.cache, isExpired q.2.expiresAt now = false →
          q ∈ (st.evictOne now).cache) ∧
    (st.cache.find? (fun q => isExpired q.2.expiresAt now) = none →
      ∀ k0 e0 rest, st.cache = (k0, e0) :: rest →
        (st.evictOne now).cache = rest) := by
  constructor
  · intro p hf
    have hmem : p ∈ st.cache := List.mem_of_find?_eq_some hf
    have hexp : isExpired p.2.expiresAt now = true := by
      have := List.find?_some hf
      simpa using this
    have hget : dictGet st.cache p.1 = some p.2 :=
      dictGet_eq_some_of_mem_nodup hkeys hmem
    have hcache : (st.evictOne now).cache = dictErase st.cache p.1 := by
      unfold MemoryStore.evictOne MemoryStore.delete
      rw [hf]
      dsimp only
      rw [hget]
    refine ⟨hmem, hexp, hcache, ?_⟩
    intro q hq hlive
    rw [hcache]
    refine mem_dictErase_of_ne hq ?_
    intro hk
    have : q = p := mem_keys_unique hkeys hq hmem hk
    rw [this] at hlive
    rw [hexp] at hlive
    cases hlive
  · intro hf k0 e0 rest hc
    unfold MemoryStore.evictOne MemoryStore.delete
    rw [hf, hc]
    simp [dictGet, dictErase]

/-- Concrete MemoryStore for the C6 witness: an expired entry behind a
live head. -/
def c6store : MemoryStore :=
  { cache := [("a", { serialized := "x", expiresAt := none, size := 1 }),
              ("b", { serialized := "y", expiresAt := some 1, size := 1 })],
    currentSize := 2, maxItems := 2, maxSize := 100 }

/-- Witness for C6: at time 5 the expired entry b is evicted (not the live
head a). -/
theorem C6_witness :
    (MemoryStore.evictOne c6store 5).cache = dictErase c6store.cache "b" ∧
    ("a", { serialized := "x", expiresAt := none, size := 1 }) ∈
      (MemoryStore.evictOne c6store 5).cache := by
  have h := (C6_memory_eviction_prefers_expired c6store 5 (by decide)).1
    ("b", { serialized := "y", expiresAt := some 1, size := 1 }) (by decide)
  exact ⟨h.2.2.1, h.2.2.2 _ (by decide) (by decide)⟩

theorem memSizeSum_nonneg : ∀ l : SDict MemEntry, 0 ≤ memSizeSum l := by
  intro l
  induction l with
  | nil => simp [memSizeSum]
  | cons p rest ih =>
      obtain ⟨k, e⟩ := p
      simp only [memSizeSum]
      positivity

theorem memSizeSum_dictErase {l : SDict MemEntry} {k : String} {e : MemEntry}
    (h : dictGet l k = some e) :
    memSizeSum (dictErase l k) = memSizeSum l - (e.size : Int) := by
  induction l with
  | nil => simp [dictGet] at h
  | cons p rest ih =>
      obtain ⟨k', v'⟩ := p
      by_cases hk : k' = k
      · simp only [dictGet, if_pos hk] at h
        cases h
        simp only [dictErase, if_pos hk, memSizeSum]
        ring
      · simp only [dictGet, if_neg hk] at h
        simp only [dictErase, if_neg hk, memSizeSum, ih h]
        ring

theorem MemoryStore.delete_sum {st : MemoryStore} {k : String}
    (h : st.currentSize = memSizeSum st.cache) :
    ((st.delete k).1).currentSize = memSizeSum ((st.delete k).1).cache := by
  unfold MemoryStore.delete
  cases hg : dictGet st.cache k with
  | none => exact h
  | some e => simp [memSizeSum_dictErase hg, h]

theorem MemoryStore.delete_maxItems (st : MemoryStore) (k : String) :
    ((st.delete k).1).maxItems = st.maxItems := by
  unfold MemoryStore.delete
  cases dictGet st.cache k <;> rfl

theorem MemoryStore.delete_maxSize (st : MemoryStore) (k : String) :
    ((st.delete k).1).maxSize = st.maxSize := by
  unfold MemoryStore.delete
  cases dictGet st.cache k <;> rfl

theorem MemoryStore.evictOne_sum {st : MemoryStore} (now : Nat)
    (h : st.currentSize = memSizeSum st.cache) :
    ((st.evictOne now)).currentSize = memSizeSum ((st.evictOne now)).cache := by
  unfold MemoryStore.evictOne
  cases st.cache.find? (fun p => isExpired p.2.expiresAt now) with
  | some p => exact MemoryStore.delete_sum h
  | none =>
      cases st.cache with
      | nil => exact h
      | cons q rest =>
          obtain ⟨k, e⟩ := q
          exact MemoryStore.delete_sum h

theorem MemoryStore.evictOne_maxItems (st : MemoryStore) (now : Nat) :
    ((st.evictOne now)).maxItems = st.maxItems := by
  unfold MemoryStore.evictOne
  cases st.cache.find? (fun p => isExpired p.2.expiresAt now) with
  | some p => exact MemoryStore.delete_maxItems st p.1
  | none =>
      cases st.cache with
      | nil => rfl
      | cons q rest =>
          obtain ⟨k, e⟩ := q
          exact MemoryStore.delete_maxItems st k

theorem MemoryStore.evictOne_maxSize (st : MemoryStore) (now : Nat) :
    ((st.evictOne now)).maxSize = st.maxSize := by
  unfold MemoryStore.evictOne
  cases st.cache.find? (fun p => isExpired p.2.expiresAt now) with
  | some p => exact MemoryStore.delete_maxSize st p.1
  | none =>
      cases st.cache with
      | nil => rfl
      | cons q rest =>
          obtain ⟨k, e⟩ := q
          exact MemoryStore.delete_maxSize st k

theorem dictGet_dictErase_none {α : Type} {l : SDict α} {k k' : String}
    (h : dictGet l k = none) : dictGet (dictErase l k') k = none := by
  induction l with
  | nil => simp [dictErase, dictGet]
  | cons p rest ih =>
      obtain ⟨k0, v0⟩ := p
      by_cases h0 : k0 = k
      · simp [dictGet, h0] at h
      · simp only [dictGet, if_neg h0] at h
        by_cases h1 : k0 = k'
        · simp only [dictErase, if_pos h1]
          exact h
        · simp only [dictErase, if_neg h1, dictGet, if_neg h0]
          exact ih h

theorem MemoryStore.delete_absent {st : MemoryStore} {k k' : String}
    (h : dictGet st.cache k = none) :
    dictGet ((st.delete k').1).cache k = none := by
  unfold MemoryStore.delete
  cases dictGet st.cache k' with
  | none => exact h
  | some e => exact dictGet_dictErase_none h

theorem MemoryStore.evictOne_absent {st : MemoryStore} {k : String} (now : Nat)
    (h : dictGet st.cache k = none) :
    dictGet ((st.evictOne now)).cache k = none := by
  unfold MemoryStore.evictOne
  cases st.cache.find? (fun p => isExpired p.2.expiresAt now) with
  | some p => exact MemoryStore.delete_absent h
  | none =>
      cases st.cache with
      | nil => exact h
      | cons q rest =>
          obtain ⟨k0, e⟩ := q
          exact MemoryStore.delete_absent h

theorem memEvictLoopF_sum :
    ∀ (fuel : Nat) (st : MemoryStore) (newSize now : Nat),
      st.currentSize = memSizeSum st.cache →
      (memEvictLoopF fuel st newSize now).currentSize =
        memSizeSum (memEvictLoopF fuel st newSize now).cache := by
  intro fuel
  induction fuel with
  | zero => intro st newSize now h; exact h
  | succ f ih =>
      intro st newSize now h
      simp only [memEvictLoopF]
      by_cases hn : st.needsEviction newSize
      · simp only [hn, if_pos]
        exact ih _ newSize now (MemoryStore.evictOne_sum now h)
      · simp only [hn]
        simpa using h

theorem memEvictLoopF_maxItems :
    ∀ (fuel : Nat) (st : MemoryStore) (newSize now : Nat),
      (memEvictLoopF fuel st newSize now).maxItems = st.maxItems := by
  intro fuel
  induction fuel with
  | zero => intro st newSize now; rfl
  | succ f ih =>
      intro st newSize now
      simp only [memEvictLoopF]
      by_cases hn : st.needsEviction newSize
      · simp only [hn, if_pos]
        rw [ih _ newSize now, MemoryStore.evictOne_maxItems]
      · simp [hn]

theorem memEvictLoopF_maxSize :
    ∀ (fuel : Nat) (st : MemoryStore) (newSize now : Nat),
      (memEvictLoopF fuel st newSize now).maxSize = st.maxSize := by
  intro fuel
  induction fuel with
  | zero => intro st newSize now; rfl
  | succ f ih =>
      intro st newSize now
      simp only [memEvictLoopF]
      by_cases hn : st.needsEviction newSize
      · simp only [hn, if_pos]
        rw [ih _ newSize now, MemoryStore.evictOne_maxSize]
      · simp [hn]

theorem memEvictLoopF_absent :
    ∀ (fuel : Nat) (st : MemoryStore) (newSize now : Nat) (k : String),
      dictGet st.cache k = none →
      dictGet (memEvictLoopF fuel st newSize now).cache k = none := by
  intro fuel
  induction fuel with
  | zero => intro st newSize now k h; exact h
  | succ f ih =>
      intro st newSize now k h
      simp only [memEvictLoopF]
      by_cases hn : st.needsEviction newSize
      · simp only [hn, if_pos]
        exact ih _ newSize now k (MemoryStore.evictOne_absent now h)
      · simp only [hn]
        simpa using h

theorem memEvictLoopF_post :
    ∀ (fuel : Nat) (st : MemoryStore) (newSize now : Nat),
      st.cache.length < fuel →
      (memEvictLoopF fuel st newSize now).needsEviction newSize = false := by
  intro fuel
  induction fuel with
  | zero => intro st newSize now h; omega
  | succ f ih =>
      intro st newSize now h
      simp only [memEvictLoopF]
      by_cases hn : st.needsEviction newSize
      · simp only [hn, if_pos]
        have hlt := MemoryStore.evictOne_length_lt now
          (MemoryStore.needsEviction_nonempty hn)
        exact ih _ newSize now (by omega)
      · simp only [hn]
        simpa using eq_false_of_ne_true hn

theorem dictGet_append_right {α : Type} {l : SDict α} {k : String} {v : α}
    (h : dictGet l k = none) : dictGet (l ++ [(k, v)]) k = some v := by
  induction l with
  | nil => simp [dictGet]
  | cons p rest ih =>
      obtain ⟨k0, v0⟩ := p
      by_cases h0 : k0 = k
      · simp [dictGet, h0] at h
      · simp only [dictGet, if_neg h0] at h
        simp only [List.cons_append, dictGet, if_neg h0]
        exact ih h

theorem mem_of_mem_dictErase {α : Type} {l : SDict α} {q : String × α}
    {k : String} (h : q ∈ dictErase l k) : q ∈ l := by
  induction l with
  | nil => simpa [dictErase] using h
  | cons p rest ih =>
      obtain ⟨k0, v0⟩ := p
      by_cases h0 : k0 = k
      · simp only [dictErase, if_pos h0] at h
        exact List.mem_cons_of_mem _ h
      · simp only [dictErase, if_neg h0] at h
        rw [List.mem_cons] at h
        rcases h with h | h
        · rw [h]; exact List.mem_cons_self _ _
        · exact List.mem_cons_of_mem _ (ih h)

theorem nodup_keys_dictErase {α : Type} {l : SDict α} {k : String}
    (h : (l.map Prod.fst).Nodup) :
    ((dictErase l k).map Prod.fst).Nodup := by
  induction l with
  | nil => simp [dictErase]
  | cons p rest ih =>
      obtain ⟨k0, v0⟩ := p
      simp only [List.map_cons, List.nodup_cons] at h
      by_cases h0 : k0 = k
      · simp only [dictErase, if_pos h0]
        exact h.2
      · simp only [dictErase, if_neg h0, List.map_cons, List.nodup_cons]
        refine ⟨fun hm => ?_, ih h.2⟩
        apply h.1
        obtain ⟨q, hq, hqe⟩ := List.mem_map.mp hm
        exact List.mem_map.mpr ⟨q, mem_of_mem_dictErase hq, hqe⟩

theorem dictGet_dictErase_self_nodup {α : Type} {l : SDict α} {k : String}
    (h : (l.map Prod.fst).Nodup) : dictGet (dictErase l k) k = none := by
  induction l with
  | nil => simp [dictErase, dictGet]
  | cons p rest ih =>
      obtain ⟨k0, v0⟩ := p
      simp only [List.map_cons, List.nodup_cons] at h
      by_cases h0 : k0 = k
      · cases hg : dictGet rest k with
        | none => simp [dictErase, h0, hg]
        | some v =>
            exfalso
            apply h.1
            rw [h0]
            clear ih h h0
            induction rest with
            | nil => simp [dictGet] at hg
            | cons q rr ihr =>
                obtain ⟨k1, v1⟩ := q
                by_cases h1 : k1 = k
                · rw [h1]; exact List.mem_cons_self _ _
                · simp only [dictGet, if_neg h1] at hg
                  exact List.mem_cons_of_mem _ (ihr hg)
      · simp only [dictErase, if_neg h0, dictGet, if_neg h0]
        exact ih h.2

theorem memSet_post_aux (st0 : MemoryStore) (k serialized : String)
    (expiresAt : Option Nat) (now : Nat)
    (h0sum : st0.currentSize = memSizeSum st0.cache)
    (h0absent : dictGet st0.cache k = none) :
    dictGet ((MemoryStore.evictLoop st0 serialized.utf8ByteSize now).cache ++
        [(k, { serialized := serialized, expiresAt := expiresAt,
               size := serialized.utf8ByteSize })]) k =
      some { serialized := serialized, expiresAt := expiresAt,
             size := serialized.utf8ByteSize } ∧
    0 ≤ (MemoryStore.evictLoop st0 serialized.utf8ByteSize now).currentSize ∧
    ((MemoryStore.evictLoop st0 serialized.utf8ByteSize now).cache.length = 0 ∨
      ((MemoryStore.evictLoop st0 serialized.utf8ByteSize now).cache.length < st0.maxItems ∧
       (MemoryStore.evictLoop st0 serialized.utf8ByteSize now).currentSize +
         (serialized.utf8ByteSize : Int) ≤ (st0.maxSize : Int))) := by
  have hLsum := memEvictLoopF_sum (st0.cache.length + 1) st0
    serialized.utf8ByteSize now h0sum
  have hLabsent := memEvictLoopF_absent (st0.cache.length + 1) st0
    serialized.utf8ByteSize now k h0absent
  have hpost := memEvictLoopF_post (st0.cache.length + 1) st0
    serialized.utf8ByteSize now (by omega)
  refine ⟨dictGet_append_right hLabsent, ?_, ?_⟩
  · rw [show MemoryStore.evictLoop st0 serialized.utf8ByteSize now =
        memEvictLoopF (st0.cache.length + 1) st0 serialized.utf8ByteSize now from rfl]
    rw [hLsum]
    exact memSizeSum_nonneg _
  · have hmi := memEvictLoopF_maxItems (st0.cache.length + 1) st0
      serialized.utf8ByteSize now
    have hms := memEvictLoopF_maxSize (st0.cache.length + 1) st0
      serialized.utf8ByteSize now
    rw [show MemoryStore.evictLoop st0 serialized.utf8ByteSize now =
        memEvictLoopF (st0.cache.length + 1) st0 serialized.utf8ByteSize now from rfl]
    unfold MemoryStore.needsEviction at hpost
    rw [hmi, hms] at hpost
    simp only [Bool.and_eq_false_iff, Bool.or_eq_false_iff, decide_eq_false_iff_not,
      not_lt, Nat.not_le] at hpost
    rcases hpost with hlen | hbounds
    · left; omega
    · right
      exact ⟨hbounds.1, le_of_not_lt (by simpa using hbounds.2)⟩

/-- C10: MemoryStore.set always inserts the new entry after its eviction
loop, even when nothing more can be evicted.  If the entry's byte size
alone exceeds maxSize, the entry is nevertheless present and currentSize
ends above maxSize; if maxItems is 0, the item count ends above maxItems.
The configured bounds (items at most maxItems, currentSize at most
maxSize) are guaranteed after set under the preconditions 1 ≤ maxItems
and size ≤ maxSize. -/
theorem C10_memory_set_always_inserts (st : MemoryStore)
    (k serialized : String) (expiresAt : Option Nat) (now : Nat)
    (hkeys : (st.cache.map Prod.fst).Nodup)
    (hsum : st.currentSize = memSizeSum st.cache) :
    dictGet (st.set k serialized expiresAt now).cache k =
      some { serialized := serialized, expiresAt := expiresAt,
             size := serialized.utf8ByteSize } ∧
    ((st.maxSize : Int) < (serialized.utf8ByteSize : Int) →
      (st.maxSize : Int) < (st.set k serialized expiresAt now).currentSize) ∧
    (st.maxItems = 0 →
      st.maxItems < (st.set k serialized expiresAt now).cache.length) ∧
    (1 ≤ st.maxItems → serialized.utf8ByteSize ≤ st.maxSize →
      (st.set k serialized expiresAt now).cache.length ≤ st.maxItems ∧
      (st.set k serialized expiresAt now).currentSize ≤ (st.maxSize : Int)) := by
  have hbranch : ∀ st0 : MemoryStore,
      st0.currentSize = memSizeSum st0.cache →
      dictGet st0.cache k = none →
      st0.maxItems = st.maxItems → st0.maxSize = st.maxSize →
      (st.set k serialized expiresAt now =
        { MemoryStore.evictLoop st0 serialized.utf8ByteSize now with
          cache := (MemoryStore.evictLoop st0 serialized.utf8ByteSize now).cache ++
            [(k, { serialized := serialized, expiresAt := expiresAt,
                   size := serialized.utf8ByteSize })],
          currentSize := (MemoryStore.evictLoop st0 serialized.utf8ByteSize now).currentSize +
            (serialized.utf8ByteSize : Int) }) →
      dictGet (st.set k serialized expiresAt now).cache k =
        some { serialized := serialized, expiresAt := expiresAt,
               size := serialized.utf8ByteSize } ∧
      ((st.maxSize : Int) < (serialized.utf8ByteSize : Int) →
        (st.maxSize : Int) < (st.set k serialized expiresAt now).currentSize) ∧
      (st.maxItems = 0 →
        st.maxItems < (st.set k serialized expiresAt now).cache.length) ∧
      (1 ≤ st.maxItems → serialized.utf8ByteSize ≤ st.maxSize →
        (st.set k serialized expiresAt now).cache.length ≤ st.maxItems ∧
        (st.set k serialized expiresAt now).currentSize ≤ (st.maxSize : Int)) := by
    intro st0 h0sum h0absent hmi hms heq
    obtain ⟨hget, hnonneg, hcases⟩ :=
      memSet_post_aux st0 k serialized expiresAt now h0sum h0absent
    rw [heq]
    dsimp only
    refine ⟨hget, ?_, ?_, ?_⟩
    · intro hbig
      omega
    · intro hzero
      simp [hzero]
    · intro hone hfit
      rcases hcases with hlen | ⟨hlt, hle⟩
      · constructor
        · simp only [List.length_append, hlen]
          simpa using hone
        · have hzero : (MemoryStore.evictLoop st0 serialized.utf8ByteSize now).cache = [] :=
            List.eq_nil_of_length_eq_zero hlen
          have : (MemoryStore.evictLoop st0 serialized.utf8ByteSize now).currentSize =
              memSizeSum (MemoryStore.evictLoop st0 serialized.utf8ByteSize now).cache :=
            memEvictLoopF_sum (st0.cache.length + 1) st0 serialized.utf8ByteSize now h0sum
          rw [hzero] at this
          simp only [memSizeSum] at this
          rw [this]
          simpa using hfit
      · rw [hmi] at hlt
        rw [hms] at hle
        constructor
        · simp only [List.length_append]
          simpa using hlt
        · omega
  by_cases hex : (dictGet st.cache k).isSome
  · cases hg : dictGet st.cache k with
    | none => rw [hg] at hex; simp at hex
    | some e =>
        refine hbranch (st.delete k).1 (MemoryStore.delete_sum hsum) ?_
          (MemoryStore.delete_maxItems st k) (MemoryStore.delete_maxSize st k) ?_
        · unfold MemoryStore.delete
          rw [hg]
          exact dictGet_dictErase_self_nodup hkeys
        · unfold MemoryStore.set
          rw [show (dictGet st.cache k).isSome = true from by rw [hg]; rfl]
          rfl
  · refine hbranch st hsum ?_ rfl rfl ?_
    · cases hg : dictGet st.cache k with
      | none => rfl
      | some e => rw [hg] at hex; simp at hex
    · unfold MemoryStore.set
      rw [show (dictGet st.cache k).isSome = false from by
        cases hg : dictGet st.cache k with
        | none => rfl
        | some e => rw [hg] at hex; simp at hex]
      rfl

/-- Concrete MemoryStore for the C10 witness. -/
def c10store : MemoryStore :=
  { cache := [("a", { serialized := "xy", expiresAt := none, size := 2 })],
    currentSize := 2, maxItems := 1, maxSize := 3 }

/-- Witness for C10: setting a 4-byte value into a store with maxSize 3
still inserts it and leaves currentSize above maxSize. -/
theorem C10_witness :
    dictGet (c10store.set "b" "abcd" none 0).cache "b" =
      some { serialized := "abcd", expiresAt := none, size := 4 } ∧
    (c10store.maxSize : Int) < (c10store.set "b" "abcd" none 0).currentSize := by
  have h := C10_memory_set_always_inserts c10store "b" "abcd" none 0
    (by decide) (by decide)
  exact ⟨h.1, h.2.1 (by decide)⟩

/-- Concrete FileStore scenario (byte bound 20): key k written with 10
encoded bytes expiring at 5, then key j with 10 encoded bytes and no
expiry. -/
def fsDemo1 : FileStore :=
  (FileStore.set (fsEmpty 20) idHash "k" (.jstr "a") (some 5) "aaaaaaaaaa" 0
    ".t1" .noFault).2.1

/-- Second stage of the concrete FileStore scenario. -/
def fsDemo2 : FileStore :=
  (FileStore.set fsDemo1 idHash "j" (.jstr "b") none "bbbbbbbbbb" 0
    ".t2" .noFault).2.1

/-- Third stage: at time 6 (k now expired) k is overwritten with 15
encoded bytes, so that ensureSpace runs while the stale index entry for k
is still present and evicts k itself. -/
def fsDemo3 : FileStore :=
  (FileStore.set fsDemo2 idHash "k" (.jstr "c") none "ccccccccccccccc" 6
    ".t3" .noFault).2.1

/-- C8 amended: FileStore.delete returns false when the key is absent and
leaves the store unchanged; when the key is present it updates the index,
reverse map and total first, and its return value is true exactly when
the unlink succeeds, so an unlink failure yields false even though the
entry was removed from the index. -/
theorem C8_delete_semantics (st : FileStore) (k : String)
    (unlinkFault : Bool) :
    (dictGet st.index k = none → st.delete k unlinkFault = (false, st)) ∧
    (∀ e, dictGet st.index k = some e →
      (st.delete k unlinkFault).2.index = dictErase st.index k ∧
      (st.delete k unlinkFault).2.hashToKey = dictErase st.hashToKey e.hash ∧
      (st.delete k unlinkFault).2.totalSize = st.totalSize - (e.size : Int) ∧
      (st.delete k unlinkFault).1 =
        (!unlinkFault && (dictGet st.disk e.hash).isSome)) := by
  constructor
  · intro hg
    unfold FileStore.delete
    rw [hg]
  · intro e hg
    unfold FileStore.delete
    rw [hg]
    dsimp only
    by_cases hu : (!unlinkFault && (dictGet st.disk e.hash).isSome) = true
    · rw [if_pos hu]
      exact ⟨rfl, rfl, rfl, by rw [hu]⟩
    · rw [if_neg hu]
      exact ⟨rfl, rfl, rfl, by rw [eq_comm, Bool.eq_false_iff]; exact fun hc => hu hc⟩

/-- Counterexample for C8 as stated: k is present in the index of fsDemo1,
yet delete returns false when the unlink fails, so the return value is not
determined by index presence alone. -/
theorem C8_counterexample :
    (dictGet fsDemo1.index "k").isSome = true ∧
    (FileStore.delete fsDemo1 "k" true).1 = false := by decide

/-- Witness for C8 amended: on fsDemo1 with a healthy filesystem, delete
returns true and the index entry is gone. -/
theorem C8_witness :
    (FileStore.delete fsDemo1 "k" false).1 = true ∧
    dictGet (FileStore.delete fsDemo1 "k" false).2.index "k" = none := by
  have h := (C8_delete_semantics fsDemo1 "k" false).2
    { hash := "k", expiresAt := some 5, lastAccessedAt := 0, size := 10 }
    (by decide)
  refine ⟨?_, ?_⟩
  · rw [h.2.2.2]; decide
  · rw [h.1]; decide

/-- C5 evidence (code bug): after a fully successful set at time 6 that
overwrites the expired entry k under disk pressure, the old size of k is
subtracted twice (once by the existing-entry bookkeeping in set, once by
ensureSpace evicting the stale index entry), leaving totalSize at 15 while
the index sizes sum to 25; and a set whose atomic write fails leaves the
existing entry in the index with its size already subtracted (totalSize 0
against an index sum of 10). -/
theorem C5_total_size_accounting_breaks :
    (FileStore.set fsDemo2 idHash "k" (.jstr "c") none "ccccccccccccccc" 6
      ".t3" .noFault).1 = true ∧
    fsDemo3.totalSize = 15 ∧
    indexSizeSum fsDemo3.index = 25 ∧
    (FileStore.set fsDemo1 idHash "k" (.jstr "c") none "ccccccccccccccc" 1
      ".t4" .renameFail).1 = false ∧
    (FileStore.set fsDemo1 idHash "k" (.jstr "c") none "ccccccccccccccc" 1
      ".t4" .renameFail).2.1.totalSize = 0 ∧
    indexSizeSum (FileStore.set fsDemo1 idHash "k" (.jstr "c") none
      "ccccccccccccccc" 1 ".t4" .renameFail).2.1.index = 10 := by decide

/-- Concrete coordinator with a 4-byte memory eligibility bound and a
large disk bound. -/
def cacheDemo0 : Cache :=
  { memory := { cache := [], currentSize := 0, maxItems := 10, maxSize := 4 },
    files := fsEmpty 1000000, maxMemorySize := 4,
    defaultTtl := none, nspace := none, hits := 0, misses := 0 }

/-- After set(k, "aa", ttl 100s) at time 0: the 4 serialized bytes fit, so
both tiers hold k with expiry 100000. -/
def cacheDemo1 : Cache :=
  (Cache.set cacheDemo0 idHash "k" (.jstr "aa") (some 100) 0 ".t1" .noFault).2

/-- After a second successful set(k, "aaaaa") at time 1 with no TTL: the 7
serialized bytes exceed the memory bound, so only disk is written and the
stale memory entry survives. -/
def cacheDemo2 : Cache :=
  (Cache.set cacheDemo1 idHash "k" (.jstr "aaaaa") none 1 ".t2" .noFault).2

/-- C1 evidence (code bug): the second set succeeds, no other write to k
occurs, its TTL is absent (no expiry), and yet the immediately following
get returns the first value "aa" from the stale memory entry instead of
the newly written "aaaaa". -/
theorem C1_read_after_write_breaks :
    (Cache.set cacheDemo1 idHash "k" (.jstr "aaaaa") none 1 ".t2" .noFault).1 = true ∧
    (Cache.get cacheDemo2 "k" 2).1 = JVal.jstr "aa" ∧
    JVal.jstr "aa" ≠ JVal.jstr "aaaaa" := by decide

/-- C2 evidence (code bug): after the same oversized overwrite, k is
present in the MemoryStore with the first write's bytes and expiry 100000
while the FileStore holds the second write's value with no expiry, so the
memory entry does not agree with disk on expires at. -/
theorem C2_memory_subset_breaks :
    (dictGet cacheDemo2.memory.cache "k").map MemEntry.expiresAt =
      some (some 100000) ∧
    (dictGet cacheDemo2.files.index "k").map IndexEntry.expiresAt = some none ∧
    (dictGet cacheDemo2.memory.cache "k").map MemEntry.serialized =
      some "\"aa\"" ∧
    (dictGet cacheDemo2.files.disk "k").map Envelope.value =
      some (JVal.jstr "aaaaa") := by decide

theorem dictGet_dictErase_ne {α : Type} {l : SDict α} {k k' : String}
    (h : k' ≠ k) : dictGet (dictErase l k') k = dictGet l k := by
  induction l with
  | nil => rfl
  | cons p rest ih =>
      obtain ⟨k0, v0⟩ := p
      by_cases h0 : k0 = k'
      · rw [show dictErase ((k0, v0) :: rest) k' = rest from by simp [dictErase, h0]]
        have : k0 ≠ k := by rw [h0]; exact h
        simp [dictGet, this]
      · simp only [dictErase, if_neg h0, dictGet]
        by_cases h1 : k0 = k
        · simp [h1]
        · simp only [if_neg h1]
          exact ih

theorem dictGet_erase_set_self {α : Type} {d : SDict α} {x : String} {v : α}
    (h : dictGet d x = none) :
    dictGet (dictErase (dictSet d x v) x) x = none := by
  induction d with
  | nil => simp [dictSet, dictErase, dictGet]
  | cons p rest ih =>
      obtain ⟨k0, v0⟩ := p
      by_cases h0 : k0 = x
      · simp [dictGet, h0] at h
      · simp only [dictGet, if_neg h0] at h
        simp only [dictSet, if_neg h0, dictErase, if_neg h0, dictGet]
        exact ih h

theorem FileStore.evictKey_disk_absent {st : FileStore} {k x : String}
    (h : dictGet st.disk x = none) :
    dictGet (st.evictKey k).1.disk x = none := by
  unfold FileStore.evictKey
  cases dictGet st.index k with
  | none => exact h
  | some e => exact dictGet_dictErase_none h

theorem FileStore.evictExpiredList_disk_absent :
    ∀ (ks : List String) (st : FileStore) (target freed : Int)
      (acc : List String) (x : String),
      dictGet st.disk x = none →
      dictGet (st.evictExpiredList ks target freed acc).1.disk x = none := by
  intro ks
  induction ks with
  | nil => intro st target freed acc x h; exact h
  | cons k rest ih =>
      intro st target freed acc x h
      simp only [FileStore.evictExpiredList]
      by_cases hge : freed ≥ target
      · simp only [hge, if_pos]
        exact h
      · rw [if_neg hge]
        exact ih _ target _ _ x (FileStore.evictKey_disk_absent h)

theorem fsEvictOldestLoopF_disk_absent :
    ∀ (fuel : Nat) (st : FileStore) (target freed : Int)
      (acc : List String) (x : String),
      dictGet st.disk x = none →
      dictGet (fsEvictOldestLoopF fuel st target freed acc).1.disk x = none := by
  intro fuel
  induction fuel with
  | zero => intro st target freed acc x h; exact h
  | succ f ih =>
      intro st target freed acc x h
      simp only [fsEvictOldestLoopF]
      by_cases hc : freed < target ∧ st.index ≠ []
      · rw [if_pos hc]
        cases st.findOldestKey with
        | none => exact h
        | some k =>
            dsimp only
            exact ih _ target _ _ x (FileStore.evictKey_disk_absent h)
      · rw [if_neg hc]
        exact h

theorem FileStore.ensureSpace_disk_absent {st : FileStore} {needed now : Nat}
    {x : String} (h : dictGet st.disk x = none) :
    dictGet (st.ensureSpace needed now).1.disk x = none := by
  unfold FileStore.ensureSpace
  by_cases hfit : st.totalSize + (needed : Int) ≤ (st.maxSize : Int)
  · rw [if_pos hfit]
    exact h
  · rw [if_neg hfit]
    dsimp only
    exact fsEvictOldestLoopF_disk_absent _ _ _ _ _ x
      (FileStore.evictExpiredList_disk_absent _ _ _ _ _ x h)

theorem MemoryStore.delete_nodup {st : MemoryStore} {k : String}
    (h : (st.cache.map Prod.fst).Nodup) :
    (((st.delete k).1).cache.map Prod.fst).Nodup := by
  unfold MemoryStore.delete
  cases dictGet st.cache k with
  | none => exact h
  | some e => exact nodup_keys_dictErase h

theorem MemoryStore.delete_lookup_or_none {st : MemoryStore} {k k' : String}
    (h : (st.cache.map Prod.fst).Nodup) :
    dictGet ((st.delete k').1).cache k = dictGet st.cache k ∨
    dictGet ((st.delete k').1).cache k = none := by
  unfold MemoryStore.delete
  cases dictGet st.cache k' with
  | none => exact Or.inl rfl
  | some e =>
      by_cases hk : k' = k
      · right
        dsimp only
        rw [hk]
        exact dictGet_dictErase_self_nodup h
      · left
        dsimp only
        exact dictGet_dictErase_ne hk

theorem Cache.applyEvict_lookup_or_none :
    ∀ (ks : List String) (st : Cache) (k : String),
      (st.memory.cache.map Prod.fst).Nodup →
      dictGet (Cache.applyEvict st ks).memory.cache k =
          dictGet st.memory.cache k ∨
      dictGet (Cache.applyEvict st ks).memory.cache k = none := by
  intro ks
  induction ks with
  | nil => intro st k h; exact Or.inl rfl
  | cons k0 rest ih =>
      intro st k h
      simp only [Cache.applyEvict]
      rcases ih { st with memory := (st.memory.delete k0).1 } k
        (MemoryStore.delete_nodup h) with hsame | hnone
      · rw [hsame]
        exact MemoryStore.delete_lookup_or_none h
      · exact Or.inr hnone

theorem FileStore.set_fail (st : FileStore) (hashFn : String → String)
    (k : String) (v : JVal) (expiresAt : Option Nat) (content : String)
    (now : Nat) (temp : String) (fault : FsFault)
    (hfault : fault ≠ .noFault) (htemp : dictGet st.disk temp = none) :
    (st.set hashFn k v expiresAt content now temp fault).1 = false ∧
    dictGet (st.set hashFn k v expiresAt content now temp fault).2.1.disk
      temp = none := by
  unfold FileStore.set
  dsimp only
  cases fault with
  | noFault => exact absurd rfl hfault
  | writeFail =>
      simp only [atomicWrite]
      refine ⟨rfl, ?_⟩
      refine dictGet_dictErase_none ?_
      refine FileStore.ensureSpace_disk_absent ?_
      repeat first
        | exact htemp
        | split
  | renameFail =>
      simp only [atomicWrite]
      refine ⟨rfl, ?_⟩
      refine dictGet_erase_set_self ?_
      refine FileStore.ensureSpace_disk_absent ?_
      repeat first
        | exact htemp
        | split

theorem Cache.applyEvict_files :
    ∀ (ks : List String) (st : Cache),
      (Cache.applyEvict st ks).files = st.files := by
  intro ks
  induction ks with
  | nil => intro st; rfl
  | cons k rest ih =>
      intro st
      simp only [Cache.applyEvict]
      exact ih _

/-- C4: if the disk write performed by set fails, the error propagates to
the caller (the success flag is false), the temporary file is removed (no
binding for the temp path remains on disk), and the memory tier is not
written for the key: its memory binding is either untouched or only
removed by eviction upcalls fired before the failure (memory is written
only after a successful disk write). -/
theorem C4_write_failure_atomicity (st : Cache) (hashFn : String → String)
    (k : String) (v : JVal) (ttl : Option Nat) (now : Nat) (temp : String)
    (fault : FsFault) (hfault : fault ≠ .noFault)
    (hkeys : (st.memory.cache.map Prod.fst).Nodup)
    (htemp : dictGet st.files.disk temp = none) :
    (Cache.set st hashFn k v ttl now temp fault).1 = false ∧
    dictGet (Cache.set st hashFn k v ttl now temp fault).2.files.disk
      temp = none ∧
    (dictGet (Cache.set st hashFn k v ttl now temp fault).2.memory.cache
        (st.prefixKey k) = dictGet st.memory.cache (st.prefixKey k) ∨
     dictGet (Cache.set st hashFn k v ttl now temp fault).2.memory.cache
        (st.prefixKey k) = none) := by
  have hfail := FileStore.set_fail st.files hashFn (st.prefixKey k) v
    ((st.resolveTtl ttl).map fun ms => now + ms)
    (envelopeString (st.prefixKey k) v
      ((st.resolveTtl ttl).map fun ms => now + ms))
    now temp fault hfault htemp
  unfold Cache.set
  dsimp only
  rw [hfail.1, if_neg Bool.false_ne_true]
  refine ⟨rfl, ?_, ?_⟩
  · rw [Cache.applyEvict_files]
    exact hfail.2
  · exact Cache.applyEvict_lookup_or_none _ _ _ hkeys

/-- Witness for C4: on the concrete cacheDemo1 a set whose rename fails
reports failure, leaves no temp file, and leaves the memory binding of k
unchanged. -/
theorem C4_witness :
    (Cache.set cacheDemo1 idHash "k" (.jstr "zzz") none 5 ".tw" .renameFail).1
      = false ∧
    dictGet (Cache.set cacheDemo1 idHash "k" (.jstr "zzz") none 5 ".tw"
      .renameFail).2.files.disk ".tw" = none ∧
    (dictGet (Cache.set cacheDemo1 idHash "k" (.jstr "zzz") none 5 ".tw"
        .renameFail).2.memory.cache (cacheDemo1.prefixKey "k") =
      dictGet cacheDemo1.memory.cache (cacheDemo1.prefixKey "k") ∨
     dictGet (Cache.set cacheDemo1 idHash "k" (.jstr "zzz") none 5 ".tw"
        .renameFail).2.memory.cache (cacheDemo1.prefixKey "k") = none) := by
  exact C4_write_failure_atomicity cacheDemo1 idHash "k" (.jstr "zzz") none 5
    ".tw" .renameFail (by decide) (by decide) (by decide)

theorem sfRun_enter_joined :
    ∀ (n : Nat) (s : SFState) (id : Nat), s.cur = some id →
      sfRun s (List.replicate n .enter) =
        { s with joined := s.joined ++ List.replicate n id } := by
  intro n
  induction n with
  | zero => intro s id h; simp [sfRun]
  | succ m ih =>
      intro s id h
      rw [List.replicate_succ]
      simp only [sfRun, sfStep, h]
      rw [ih { cur := some id, started := s.started, joined := s.joined ++ [id] }
        id rfl]
      simp [List.replicate_succ]

theorem Cache.get_absent {st : Cache} {k : String} {now : Nat}
    (hmem : dictGet st.memory.cache (st.prefixKey k) = none)
    (hidx : dictGet st.files.index (st.prefixKey k) = none) :
    st.get k now = (JVal.jnull, { st with misses := st.misses + 1 }) := by
  unfold Cache.get MemoryStore.get MemoryStore.getValidEntry FileStore.get
    FileStore.getValidIndexEntry
  dsimp only
  rw [hmem, hidx]

theorem Cache.getOrSet_error (st : Cache) (hashFn : String → String)
    (k : String) (ttl : Option Nat) (now : Nat) (temp : String) (e : Unit)
    (hmem : dictGet st.memory.cache (st.prefixKey k) = none)
    (hidx : dictGet st.files.index (st.prefixKey k) = none) :
    Cache.getOrSet st hashFn k (.error e) ttl now temp =
      (.error e, { st with misses := st.misses + 2 }, true) := by
  unfold Cache.getOrSet
  rw [Cache.get_absent hmem hidx]
  dsimp only
  rw [if_neg (by simp)]
  rw [@Cache.get_absent { st with misses := st.misses + 1 } k now hmem hidx]
  dsimp only
  rw [if_neg (by simp)]

/-- C3: for an uncached key, the first of K concurrent getOrSet callers
starts the shared computation and stores it in the in-flight table; every
one of the K callers awaits that same computation (identifier 0), so the
function is invoked exactly once and all callers receive the same
outcome, success or failure alike; the table entry is removed when the
computation settles, and the next caller afterwards starts a second
computation.  When the computation fails, the guarded body performs no
set: the final cache state is the state after the two reads alone (two
recorded misses), so nothing is cached and a later getOrSet re-runs the
function. -/
theorem C3_single_flight (K : Nat) (hK : 1 ≤ K) :
    (sfRun sfInit (List.replicate K .enter)).started = 1 ∧
    (sfRun sfInit (List.replicate K .enter)).joined = List.replicate K 0 ∧
    (sfRun sfInit (List.replicate K .enter)).cur = some 0 ∧
    (sfStep (sfRun sfInit (List.replicate K .enter)) .settle).cur = none ∧
    (sfStep (sfStep (sfRun sfInit (List.replicate K .enter)) .settle)
      .enter).started = 2 ∧
    (∀ (st : Cache) (hashFn : String → String) (k : String)
       (ttl : Option Nat) (now : Nat) (temp : String) (e : Unit),
       dictGet st.memory.cache (st.prefixKey k) = none →
       dictGet st.files.index (st.prefixKey k) = none →
       Cache.getOrSet st hashFn k (.error e) ttl now temp =
         (.error e, { st with misses := st.misses + 2 }, true)) := by
  obtain ⟨m, rfl⟩ : ∃ m, K = m + 1 := ⟨K - 1, by omega⟩
  have hrun : sfRun sfInit (List.replicate (m + 1) .enter) =
      { cur := some 0, started := 1, joined := List.replicate (m + 1) 0 } := by
    rw [List.replicate_succ]
    simp only [sfRun, sfStep, sfInit, Nat.zero_add, List.nil_append]
    rw [sfRun_enter_joined m { cur := some 0, started := 1, joined := [0] } 0 rfl]
    simp [List.replicate_succ]
  refine ⟨?_, ?_, ?_, ?_, ?_, ?_⟩
  · rw [hrun]
  · rw [hrun]
  · rw [hrun]
  · rw [hrun]; rfl
  · rw [hrun]; rfl
  · intro st hashFn k ttl now temp e hmem hidx
    exact Cache.getOrSet_error st hashFn k ttl now temp e hmem hidx

/-- Witness for C3 at K = 3 and a concrete empty cache. -/
theorem C3_witness :
    (sfRun sfInit (List.replicate 3 .enter)).started = 1 ∧
    (sfRun sfInit (List.replicate 3 .enter)).joined = [0, 0, 0] ∧
    Cache.getOrSet cacheDemo0 idHash "w" (.error ()) none 0 ".t9" =
      (.error (), { cacheDemo0 with misses := 2 }, true) := by
  have h := C3_single_flight 3 (by decide)
  refine ⟨h.1, ?_, ?_⟩
  · rw [h.2.1]; rfl
  · exact h.2.2.2.2.2 cacheDemo0 idHash "w" none 0 ".t9" () (by decide) (by decide)

theorem dictGet_dictSet_self {α : Type} (d : SDict α) (k : String) (v : α) :
    dictGet (dictSet d k v) k = some v := by
  induction d with
  | nil => simp [dictSet, dictGet]
  | cons p rest ih =>
      obtain ⟨k0, v0⟩ := p
      by_cases h0 : k0 = k
      · simp [dictSet, h0, dictGet]
      · simp only [dictSet, if_neg h0, dictGet, if_neg h0]
        exact ih

theorem dictErase_append_absent {α : Type} {l : SDict α} {k : String} {e : α}
    (h : dictGet l k = none) : dictErase (l ++ [(k, e)]) k = l := by
  induction l with
  | nil => simp [dictErase]
  | cons p rest ih =>
      obtain ⟨k0, v0⟩ := p
      by_cases h0 : k0 = k
      · simp [dictGet, h0] at h
      · simp only [dictGet, if_neg h0] at h
        simp only [List.cons_append, dictErase, if_neg h0]
        exact congrArg (fun l => (k0, v0) :: l) (ih h)

theorem Cache.applyEvict_absent :
    ∀ (ks : List String) (st : Cache) (k : String),
      dictGet st.memory.cache k = none →
      dictGet (Cache.applyEvict st ks).memory.cache k = none := by
  intro ks
  induction ks with
  | nil => intro st k h; exact h
  | cons k0 rest ih =>
      intro st k h
      simp only [Cache.applyEvict]
      exact ih _ k (MemoryStore.delete_absent h)

theorem Cache.applyEvict_nspace :
    ∀ (ks : List String) (st : Cache),
      (Cache.applyEvict st ks).nspace = st.nspace := by
  intro ks
  induction ks with
  | nil => intro st; rfl
  | cons k0 rest ih => intro st; simp only [Cache.applyEvict]; exact ih _

theorem Cache.applyEvict_maxMemorySize :
    ∀ (ks : List String) (st : Cache),
      (Cache.applyEvict st ks).maxMemorySize = st.maxMemorySize := by
  intro ks
  induction ks with
  | nil => intro st; rfl
  | cons k0 rest ih => intro st; simp only [Cache.applyEvict]; exact ih _

theorem Cache.applyEvict_memory_bounds :
    ∀ (ks : List String) (st : Cache),
      (Cache.applyEvict st ks).memory.maxItems = st.memory.maxItems ∧
      (Cache.applyEvict st ks).memory.maxSize = st.memory.maxSize := by
  intro ks
  induction ks with
  | nil => intro st; exact ⟨rfl, rfl⟩
  | cons k0 rest ih =>
      intro st
      simp only [Cache.applyEvict]
      refine ⟨?_, ?_⟩
      · rw [(ih _).1, MemoryStore.delete_maxItems]
      · rw [(ih _).2, MemoryStore.delete_maxSize]

theorem Cache.prefixKey_congr {st1 st2 : Cache} (k : String)
    (h : st1.nspace = st2.nspace) : st1.prefixKey k = st2.prefixKey k := by
  unfold Cache.prefixKey
  rw [h]

theorem isExpired_map_future (o : Option Nat) (now : Nat) :
    isExpired (o.map (fun ms => now + ms)) now = false := by
  cases o with
  | none => rfl
  | some a =>
      simp only [show Option.map (fun ms => now + ms) (some a) =
        some (now + a) from rfl, isExpired, decide_eq_false_iff_not, not_lt]
      omega

theorem parseV_null : parseV "null" = JVal.jnull := by decide

theorem FileStore.set_ok_flag (st : FileStore) (hashFn : String → String)
    (k : String) (v : JVal) (expiresAt : Option Nat) (content : String)
    (now : Nat) (temp : String) :
    (st.set hashFn k v expiresAt content now temp .noFault).1 = true := rfl

theorem FileStore.set_ok_disk (st : FileStore) (hashFn : String → String)
    (k : String) (v : JVal) (expiresAt : Option Nat) (content : String)
    (now : Nat) (temp : String) :
    dictGet (st.set hashFn k v expiresAt content now temp .noFault).2.1.disk
        (hashFn k) =
      some { key := k, value := v, expiresAt := expiresAt } := by
  unfold FileStore.set
  dsimp only
  simp only [atomicWrite, if_true]
  exact dictGet_dictSet_self _ _ _

theorem Cache.get_memhit {st : Cache} {k : String} {now : Nat} {e : MemEntry}
    (he : dictGet st.memory.cache (st.prefixKey k) = some e)
    (hlive : isExpired e.expiresAt now = false) :
    (st.get k now).1 = parseV e.serialized ∧
    (st.get k now).2.memory.cache =
      dictErase st.memory.cache (st.prefixKey k) ++ [(st.prefixKey k, e)] ∧
    (st.get k now).2.nspace = st.nspace := by
  unfold Cache.get MemoryStore.get MemoryStore.getValidEntry
  dsimp only
  rw [he]
  dsimp only
  rw [hlive, if_neg Bool.false_ne_true]
  exact ⟨rfl, rfl, rfl⟩

theorem Cache.getOrSet_ok_miss (st : Cache) (hashFn : String → String)
    (k : String) (v : JVal) (ttl : Option Nat) (now : Nat) (temp : String)
    (hmem : dictGet st.memory.cache (st.prefixKey k) = none)
    (hidx : dictGet st.files.index (st.prefixKey k) = none) :
    Cache.getOrSet st hashFn k (.ok v) ttl now temp =
      (.ok v,
       (Cache.set { st with misses := st.misses + 2 } hashFn k v ttl now temp
         .noFault).2, true) := by
  unfold Cache.getOrSet
  rw [Cache.get_absent hmem hidx]
  dsimp only
  rw [if_neg (by simp)]
  rw [@Cache.get_absent { st with misses := st.misses + 1 } k now hmem hidx]
  dsimp only
  rw [if_neg (by simp)]

theorem Cache.set_ok_components (st : Cache) (hashFn : String → String)
    (k : String) (v : JVal) (ttl : Option Nat) (now : Nat) (temp : String)
    (hmem : dictGet st.memory.cache (st.prefixKey k) = none)
    (hfit : (stringifyV v).utf8ByteSize ≤ st.maxMemorySize) :
    (Cache.set st hashFn k v ttl now temp .noFault).1 = true ∧
    dictGet (Cache.set st hashFn k v ttl now temp .noFault).2.memory.cache
        (st.prefixKey k) =
      some { serialized := stringifyV v,
             expiresAt := (st.resolveTtl ttl).map (fun ms => now + ms),
             size := (stringifyV v).utf8ByteSize } ∧
    dictGet (dictErase
        (Cache.set st hashFn k v ttl now temp .noFault).2.memory.cache
        (st.prefixKey k)) (st.prefixKey k) = none ∧
    dictGet (Cache.set st hashFn k v ttl now temp .noFault).2.files.disk
        (hashFn (st.prefixKey k)) =
      some { key := st.prefixKey k, value := v,
             expiresAt := (st.resolveTtl ttl).map (fun ms => now + ms) } ∧
    (Cache.set st hashFn k v ttl now temp .noFault).2.nspace = st.nspace := by
  have hflag := FileStore.set_ok_flag st.files hashFn (st.prefixKey k) v
    ((st.resolveTtl ttl).map fun ms => now + ms)
    (envelopeString (st.prefixKey k) v
      ((st.resolveTtl ttl).map fun ms => now + ms)) now temp
  have hdisk := FileStore.set_ok_disk st.files hashFn (st.prefixKey k) v
    ((st.resolveTtl ttl).map fun ms => now + ms)
    (envelopeString (st.prefixKey k) v
      ((st.resolveTtl ttl).map fun ms => now + ms)) now temp
  unfold Cache.set
  dsimp only
  rw [hflag, if_pos rfl]
  have habsent : dictGet (Cache.applyEvict
      { st with files := (FileStore.set st.files hashFn (st.prefixKey k) v
          ((st.resolveTtl ttl).map fun ms => now + ms)
          (envelopeString (st.prefixKey k) v
            ((st.resolveTtl ttl).map fun ms => now + ms)) now temp
          .noFault).2.1 }
      (FileStore.set st.files hashFn (st.prefixKey k) v
        ((st.resolveTtl ttl).map fun ms => now + ms)
        (envelopeString (st.prefixKey k) v
          ((st.resolveTtl ttl).map fun ms => now + ms)) now temp
        .noFault).2.2).memory.cache (st.prefixKey k) = none :=
    Cache.applyEvict_absent _ _ _ hmem
  have hmms := Cache.applyEvict_maxMemorySize
    (FileStore.set st.files hashFn (st.prefixKey k) v
      ((st.resolveTtl ttl).map fun ms => now + ms)
      (envelopeString (st.prefixKey k) v
        ((st.resolveTtl ttl).map fun ms => now + ms)) now temp
      .noFault).2.2
    { st with files := (FileStore.set st.files hashFn (st.prefixKey k) v
        ((st.resolveTtl ttl).map fun ms => now + ms)
        (envelopeString (st.prefixKey k) v
          ((st.resolveTtl ttl).map fun ms => now + ms)) now temp
        .noFault).2.1 }
  rw [if_pos (by rw [hmms]; exact hfit)]
  have hsetmem : ∀ (m : MemoryStore),
      dictGet m.cache (st.prefixKey k) = none →
      dictGet (m.set (st.prefixKey k) (stringifyV v)
          ((st.resolveTtl ttl).map fun ms => now + ms) now).cache
          (st.prefixKey k) =
        some { serialized := stringifyV v,
               expiresAt := (st.resolveTtl ttl).map fun ms => now + ms,
               size := (stringifyV v).utf8ByteSize } ∧
      dictGet (dictErase (m.set (st.prefixKey k) (stringifyV v)
          ((st.resolveTtl ttl).map fun ms => now + ms) now).cache
          (st.prefixKey k)) (st.prefixKey k) = none := by
    intro m hm
    unfold MemoryStore.set
    rw [show (dictGet m.cache (st.prefixKey k)).isSome = false from by
      rw [hm]; rfl]
    simp only [Bool.false_eq_true, if_false]
    have habs2 : dictGet (MemoryStore.evictLoop m
        (stringifyV v).utf8ByteSize now).cache (st.prefixKey k) = none :=
      memEvictLoopF_absent _ _ _ _ _ hm
    refine ⟨dictGet_append_right habs2, ?_⟩
    rw [dictErase_append_absent habs2]
    exact habs2
  obtain ⟨hm1, hm2⟩ := hsetmem _ habsent
  refine ⟨rfl, hm1, hm2, ?_, ?_⟩
  · rw [Cache.applyEvict_files]
    exact hdisk
  · rw [Cache.applyEvict_nspace]

theorem Cache.getOrSet_invokes_on_null_hit (st : Cache)
    (hashFn : String → String) (k : String) (g : Except Unit JVal)
    (ttl : Option Nat) (now : Nat) (temp2 : String) (entry0 : MemEntry)
    (hlook : dictGet st.memory.cache (st.prefixKey k) = some entry0)
    (herase : dictGet (dictErase st.memory.cache (st.prefixKey k))
      (st.prefixKey k) = none)
    (hnull : parseV entry0.serialized = JVal.jnull)
    (hlive : isExpired entry0.expiresAt now = false) :
    (Cache.getOrSet st hashFn k g ttl now temp2).2.2 = true := by
  have memhit1 := Cache.get_memhit hlook hlive
  have hpk1 : (st.get k now).2.prefixKey k = st.prefixKey k :=
    Cache.prefixKey_congr k memhit1.2.2
  have hlook2 : dictGet (st.get k now).2.memory.cache
      ((st.get k now).2.prefixKey k) = some entry0 := by
    rw [memhit1.2.1, hpk1]
    exact dictGet_append_right herase
  have memhit2 := Cache.get_memhit hlook2 hlive
  unfold Cache.getOrSet
  dsimp only
  rw [memhit1.1, hnull]
  rw [if_neg (by simp)]
  rw [memhit2.1, hnull]
  rw [if_neg (by simp)]
  cases g <;> rfl

/-- C9 (implicit): a cached null is indistinguishable from a miss in
getOrSet.  For an uncached key whose computation returns null, getOrSet
returns null and stores null in both tiers (the serialized bytes "null"
in memory, a null-valued envelope on disk), yet an immediately following
getOrSet for the same key invokes its computation again, whatever that
computation is: the stored null never short-circuits, so the exactly-once
guarantee does not extend across calls for null-valued results. -/
theorem C9_cached_null_indistinguishable (st : Cache)
    (hashFn : String → String) (k : String) (ttl : Option Nat) (now : Nat)
    (temp temp2 : String) (g : Except Unit JVal)
    (hmem : dictGet st.memory.cache (st.prefixKey k) = none)
    (hidx : dictGet st.files.index (st.prefixKey k) = none)
    (hfit : 4 ≤ st.maxMemorySize) :
    (Cache.getOrSet st hashFn k (.ok .jnull) ttl now temp).1 =
      .ok JVal.jnull ∧
    (Cache.getOrSet st hashFn k (.ok .jnull) ttl now temp).2.2 = true ∧
    (dictGet (Cache.getOrSet st hashFn k (.ok .jnull) ttl now
        temp).2.1.memory.cache (st.prefixKey k)).map MemEntry.serialized =
      some "null" ∧
    (dictGet (Cache.getOrSet st hashFn k (.ok .jnull) ttl now
        temp).2.1.files.disk (hashFn (st.prefixKey k))).map Envelope.value =
      some JVal.jnull ∧
    (Cache.getOrSet (Cache.getOrSet st hashFn k (.ok .jnull) ttl now
        temp).2.1 hashFn k g ttl now temp2).2.2 = true := by
  have hfit2 : (stringifyV JVal.jnull).utf8ByteSize ≤
      Cache.maxMemorySize { st with misses := st.misses + 2 } := by
    rw [show (stringifyV JVal.jnull).utf8ByteSize = 4 from rfl]
    exact hfit
  have scomp := Cache.set_ok_components { st with misses := st.misses + 2 }
    hashFn k .jnull ttl now temp hmem hfit2
  have hpk : Cache.prefixKey { st with misses := st.misses + 2 } k =
      st.prefixKey k := rfl
  rw [hpk] at scomp
  have hrun := Cache.getOrSet_ok_miss st hashFn k .jnull ttl now temp hmem hidx
  rw [hrun]
  refine ⟨rfl, rfl, ?_, ?_, ?_⟩
  · rw [scomp.2.1]
    rfl
  · rw [scomp.2.2.2.1]
    rfl
  · dsimp only
    have hns := scomp.2.2.2.2
    have hpk2 : (Cache.set { st with misses := st.misses + 2 } hashFn k
        JVal.jnull ttl now temp FsFault.noFault).2.prefixKey k =
        st.prefixKey k := by
      refine Eq.trans (Cache.prefixKey_congr k ?_) hpk
      exact hns
    refine Cache.getOrSet_invokes_on_null_hit _ hashFn k g ttl now temp2
      { serialized := stringifyV JVal.jnull,
        expiresAt := (Cache.resolveTtl { st with misses := st.misses + 2 }
          ttl).map fun ms => now + ms,
        size := (stringifyV JVal.jnull).utf8ByteSize } ?_ ?_ ?_ ?_
    · rw [hpk2]
      exact scomp.2.1
    · rw [hpk2]
      exact scomp.2.2.1
    · exact parseV_null
    · exact isExpired_map_future _ now

/-- Concrete empty coordinator for the C9 witness. -/
def cacheDemo9 : Cache :=
  { memory := { cache := [], currentSize := 0, maxItems := 10, maxSize := 100 },
    files := fsEmpty 1000000, maxMemorySize := 100,
    defaultTtl := none, nspace := none, hits := 0, misses := 0 }

/-- Witness for C9 on the concrete empty cache. -/
theorem C9_witness :
    (Cache.getOrSet cacheDemo9 idHash "k" (.ok .jnull) none 0 ".t1").1 =
      .ok JVal.jnull ∧
    (dictGet (Cache.getOrSet cacheDemo9 idHash "k" (.ok .jnull) none 0
        ".t1").2.1.memory.cache (cacheDemo9.prefixKey "k")).map
      MemEntry.serialized = some "null" ∧
    (Cache.getOrSet (Cache.getOrSet cacheDemo9 idHash "k" (.ok .jnull) none 0
        ".t1").2.1 idHash "k" (.ok (.jstr "x")) none 0 ".t2").2.2 = true := by
  have h := C9_cached_null_indistinguishable cacheDemo9 idHash "k" none 0
    ".t1" ".t2" (.ok (.jstr "x")) (by decide) (by decide) (by decide)
  exact ⟨h.1, h.2.2.1, h.2.2.2.2⟩

theorem amatchF_congr :
    ∀ (f1 f2 : Nat) (as : List RAtom) (s : List Char),
      as.length + s.length < f1 → as.length + s.length < f2 →
      amatchF f1 as s = amatchF f2 as s := by
  intro f1
  induction f1 with
  | zero => intro f2 as s h1; omega
  | succ f ih =>
      intro f2 as s h1 h2
      cases f2 with
      | zero => omega
      | succ g =>
          simp only [amatchF]
          match as, s with
          | [], [] => rfl
          | [], _ :: _ => rfl
          | .lit c :: as, [] => rfl
          | .lit c :: as, x :: xs =>
              simp only [List.length_cons] at h1 h2
              dsimp only
              rw [ih g as xs (by omega) (by omega)]
          | .optLit c :: as, [] =>
              simp only [List.length_cons] at h1 h2
              dsimp only
              rw [ih g as [] (by simp; omega) (by simp; omega)]
          | .optLit c :: as, x :: xs =>
              simp only [List.length_cons] at h1 h2
              dsimp only
              rw [ih g as (x :: xs) (by simp; omega) (by simp; omega),
                ih g as xs (by omega) (by omega)]
          | .star :: as, [] =>
              simp only [List.length_cons] at h1 h2
              dsimp only
              rw [ih g as [] (by simp; omega) (by simp; omega)]
          | .star :: as, x :: xs =>
              simp only [List.length_cons] at h1 h2
              dsimp only
              rw [ih g as (x :: xs) (by simp; omega) (by simp; omega),
                ih g (.star :: as) xs (by simp; omega) (by simp; omega)]

theorem globSpecNoNlF_congr :
    ∀ (f1 f2 : Nat) (p : List Char) (s : List Char),
      p.length + s.length < f1 → p.length + s.length < f2 →
      globSpecNoNlF f1 p s = globSpecNoNlF f2 p s := by
  intro f1
  induction f1 with
  | zero => intro f2 p s h1; omega
  | succ f ih =>
      intro f2 p s h1 h2
      cases f2 with
      | zero => omega
      | succ g =>
          simp only [globSpecNoNlF]
          match p, s with
          | [], [] => rfl
          | [], _ :: _ => rfl
          | c :: p, [] =>
              simp only [List.length_cons] at h1 h2
              dsimp only
              by_cases hc : c = '*'
              · rw [if_pos hc, if_pos hc,
                  ih g p [] (by simp; omega) (by simp; omega)]
              · rw [if_neg hc, if_neg hc]
          | c :: p, x :: xs =>
              simp only [List.length_cons] at h1 h2
              dsimp only
              by_cases hc : c = '*'
              · rw [if_pos hc, if_pos hc,
                  ih g p (x :: xs) (by simp; omega) (by simp; omega),
                  ih g (c :: p) xs (by simp; omega) (by simp; omega)]
              · rw [if_neg hc, if_neg hc,
                  ih g p xs (by omega) (by omega)]

theorem globSpecNoNlF_cons_nil (f : Nat) (c : Char) (p : List Char)
    (h : p.length < f) :
    globSpecNoNlF (f + 1) (c :: p) [] =
      if c = '*' then globSpecNoNl p [] else false := by
  simp only [globSpecNoNlF]
  by_cases hc : c = '*'
  · rw [if_pos hc, if_pos hc]
    refine globSpecNoNlF_congr f (p.length + 0 + 1) p [] ?_ ?_ <;> simp [h]
  · rw [if_neg hc, if_neg hc]

theorem globSpecNoNl_cons_nil (c : Char) (p : List Char) :
    globSpecNoNl (c :: p) [] =
      if c = '*' then globSpecNoNl p [] else false :=
  globSpecNoNlF_cons_nil ((c :: p).length + ([] : List Char).length) c p
    (by simp)

theorem globSpecNoNlF_cons_cons (f : Nat) (c : Char) (p : List Char)
    (x : Char) (xs : List Char) (h : p.length + xs.length + 1 < f) :
    globSpecNoNlF (f + 1) (c :: p) (x :: xs) =
      (if c = '*' then
        globSpecNoNl p (x :: xs) || (!isLineTerm x && globSpecNoNl (c :: p) xs)
      else (x = c && globSpecNoNl p xs)) := by
  simp only [globSpecNoNlF]
  by_cases hc : c = '*'
  · rw [if_pos hc, if_pos hc]
    have e1 := globSpecNoNlF_congr f (p.length + (x :: xs).length + 1) p
      (x :: xs) (by simp only [List.length_cons]; omega)
      (by simp only [List.length_cons]; omega)
    have e2 := globSpecNoNlF_congr f ((c :: p).length + xs.length + 1)
      (c :: p) xs (by simp only [List.length_cons]; omega)
      (by simp only [List.length_cons]; omega)
    rw [e1, e2]
    rfl
  · rw [if_neg hc, if_neg hc]
    have e3 := globSpecNoNlF_congr f (p.length + xs.length + 1) p xs
      (by omega) (by omega)
    rw [e3]
    rfl

theorem globSpecNoNl_cons_cons (c : Char) (p : List Char) (x : Char)
    (xs : List Char) :
    globSpecNoNl (c :: p) (x :: xs) =
      (if c = '*' then
        globSpecNoNl p (x :: xs) || (!isLineTerm x && globSpecNoNl (c :: p) xs)
      else (x = c && globSpecNoNl p xs)) :=
  globSpecNoNlF_cons_cons ((c :: p).length + (x :: xs).length) c p x xs
    (by simp; omega)

theorem amatchF_charAtom_eq_globNoNlF :
    ∀ (fuel : Nat) (cs : List Char) (s : List Char),
      amatchF fuel (cs.map charAtom) s = globSpecNoNlF fuel cs s := by
  intro fuel
  induction fuel with
  | zero => intro cs s; rfl
  | succ f ih =>
      intro cs s
      cases cs with
      | nil =>
          cases s with
          | nil => rfl
          | cons x xs => rfl
      | cons c p =>
          by_cases hc : c = '*'
          · subst hc
            cases s with
            | nil =>
                show amatchF (f + 1) (.star :: p.map charAtom) [] = _
                simp only [amatchF, globSpecNoNlF, if_pos rfl]
                exact ih p []
            | cons x xs =>
                show amatchF (f + 1) (.star :: p.map charAtom) (x :: xs) = _
                simp only [amatchF, globSpecNoNlF, if_pos rfl, if_true]
                rw [ih p (x :: xs)]
                rw [show RAtom.star :: p.map charAtom =
                  ('*' :: p).map charAtom from rfl]
                rw [ih ('*' :: p) xs]
          · cases s with
            | nil =>
                simp only [List.map_cons,
                  show charAtom c = RAtom.lit c from by simp [charAtom, hc]]
                simp only [amatchF, globSpecNoNlF, if_neg hc]
            | cons x xs =>
                simp only [List.map_cons,
                  show charAtom c = RAtom.lit c from by simp [charAtom, hc]]
                simp only [amatchF, globSpecNoNlF, if_neg hc]
                rw [ih p xs]

theorem globSpecNoNl_double_star (p : List Char) :
    ∀ s : List Char,
      globSpecNoNl ('*' :: '*' :: p) s = globSpecNoNl ('*' :: p) s := by
  intro s
  induction s with
  | nil =>
      rw [globSpecNoNl_cons_nil, if_pos rfl, globSpecNoNl_cons_nil, if_pos rfl]
  | cons x xs ih =>
      rw [globSpecNoNl_cons_cons, if_pos rfl, ih]
      conv_rhs => rw [globSpecNoNl_cons_cons, if_pos rfl]
      rw [globSpecNoNl_cons_cons, if_pos rfl]
      cases globSpecNoNl p (x :: xs) <;>
        cases (!isLineTerm x && globSpecNoNl ('*' :: p) xs) <;> rfl

theorem globSpecNoNl_cons_congr (c : Char) (p1 p2 : List Char)
    (hp : ∀ t : List Char, globSpecNoNl p1 t = globSpecNoNl p2 t) :
    ∀ s : List Char, globSpecNoNl (c :: p1) s = globSpecNoNl (c :: p2) s := by
  intro s
  induction s with
  | nil =>
      rw [globSpecNoNl_cons_nil, globSpecNoNl_cons_nil, hp]
  | cons x xs ih =>
      rw [globSpecNoNl_cons_cons, globSpecNoNl_cons_cons, hp, ih, hp]

theorem globSpecNoNl_collapseStars :
    ∀ (cs : List Char) (s : List Char),
      globSpecNoNl (collapseStars cs) s = globSpecNoNl cs s := by
  intro cs
  induction cs with
  | nil => intro s; rfl
  | cons c1 rest ihout =>
      cases rest with
      | nil => intro s; rfl
      | cons c2 rest2 =>
          intro s
          by_cases hstars : c1 = '*' && c2 = '*'
          · simp only [collapseStars, hstars, if_pos]
            obtain ⟨h1, h2⟩ := by simpa using hstars
            subst h1
            subst h2
            rw [ihout s, globSpecNoNl_double_star]
          · simp only [collapseStars, hstars]
            rw [if_neg (by simp_all)]
            exact globSpecNoNl_cons_congr c1 _ _ (fun t => ihout t) s

theorem foldl_pushTok_no_quest :
    ∀ (cs : List Char) (acc : List RAtom), '?' ∉ cs →
      (cs.map charTok).foldl pushTok (some acc) =
        some ((cs.map charAtom).reverse ++ acc) := by
  intro cs
  induction cs with
  | nil => intro acc h; simp [toAtoms]
  | cons c rest ih =>
      intro acc h
      rw [List.mem_cons] at h
      push_neg at h
      have hc : ¬c = '?' := fun he => h.1 he.symm
      have hstep : pushTok (some acc) (charTok c) = some (charAtom c :: acc) := by
        by_cases hs : c = '*'
        · simp [charTok, charAtom, hs, pushTok]
        · simp [charTok, charAtom, hs, hc, pushTok]
      simp only [List.map_cons, List.foldl_cons, hstep]
      rw [ih (charAtom c :: acc) h.2]
      simp

theorem toAtoms_no_quest {cs : List Char} (h : '?' ∉ cs) :
    toAtoms (cs.map charTok) = some (cs.map charAtom) := by
  unfold toAtoms
  rw [foldl_pushTok_no_quest cs [] h]
  simp

theorem not_mem_collapseStars :
    ∀ {cs : List Char}, '?' ∉ cs → '?' ∉ collapseStars cs := by
  intro cs
  induction cs with
  | nil => intro h; simpa [collapseStars] using h
  | cons c1 rest ih =>
      cases rest with
      | nil => intro h; simpa [collapseStars] using h
      | cons c2 rest2 =>
          intro h
          rw [List.mem_cons] at h
          push_neg at h
          by_cases hstars : c1 = '*' && c2 = '*'
          · simp only [collapseStars, hstars, if_pos]
            exact ih h.2
          · simp only [collapseStars, hstars]
            rw [if_neg (by simp_all)]
            rw [List.mem_cons]
            push_neg
            exact ⟨h.1, ih h.2⟩

/-- C7 counterexample: the claim that the compiled matcher agrees with
plain glob semantics (stars as arbitrary substrings, all other characters
literal) fails on the code.  The question mark is not in the escape class,
so the pattern a? compiles to the regex a-optional and rejects the very
key a? that glob semantics accepts; and the dot generated for a star does
not match a line terminator, so the pattern a*b rejects the key a-newline-b
that glob semantics accepts. -/
theorem C7_counterexample :
    globSpec (String.data "a?") (String.data "a?") = true ∧
    compilePattern "a?" = some (CompiledP.re [RAtom.optLit 'a']) ∧
    matchPattern "a?" (CompiledP.re [RAtom.optLit 'a']) = false ∧
    globSpec (String.data "a*b") (String.data "a\nb") = true ∧
    compilePattern "a*b" =
      some (CompiledP.re [RAtom.lit 'a', RAtom.star, RAtom.lit 'b']) ∧
    matchPattern "a\nb"
      (CompiledP.re [RAtom.lit 'a', RAtom.star, RAtom.lit 'b']) = false := by
  decide

/-- C7 amended: the star pattern alone compiles to the accept-all matcher
and accepts every key; every other pattern containing no question mark
compiles to the anchored atom sequence of its star-collapsed characters,
and that matcher accepts a key exactly when the key is obtained from the
pattern by replacing each star with an arbitrary (possibly empty)
substring of non-line-terminator characters, every other character (in
particular each escaped regex metacharacter) matched literally. -/
theorem C7_pattern_compilation (p k : String) (hstar : p ≠ "*")
    (hq : '?' ∉ p.data) :
    compilePattern p =
      some (CompiledP.re ((collapseStars p.data).map charAtom)) ∧
    matchPattern k (CompiledP.re ((collapseStars p.data).map charAtom)) =
      globSpecNoNl p.data k.data ∧
    compilePattern "*" = some CompiledP.all ∧
    matchPattern k CompiledP.all = true := by
  refine ⟨?_, ?_, rfl, rfl⟩
  · unfold compilePattern
    rw [if_neg hstar]
    rw [toAtoms_no_quest (not_mem_collapseStars hq)]
    rfl
  · show amatch ((collapseStars p.data).map charAtom) k.data = _
    unfold amatch
    rw [show ((collapseStars p.data).map charAtom).length =
      (collapseStars p.data).length from by simp]
    rw [amatchF_charAtom_eq_globNoNlF]
    exact globSpecNoNl_collapseStars p.data k.data

/-- Witness for C7 amended at the pattern a*c and keys abc and ab. -/
theorem C7_witness :
    compilePattern "a*c" =
      some (CompiledP.re ((collapseStars (String.data "a*c")).map charAtom)) ∧
    matchPattern "abc"
        (CompiledP.re ((collapseStars (String.data "a*c")).map charAtom)) =
      globSpecNoNl (String.data "a*c") (String.data "abc") ∧
    globSpecNoNl (String.data "a*c") (String.data "abc") = true ∧
    matchPattern "ab"
        (CompiledP.re ((collapseStars (String.data "a*c")).map charAtom)) =
      globSpecNoNl (String.data "a*c") (String.data "ab") ∧
    globSpecNoNl (String.data "a*c") (String.data "ab") = false := by
  have h1 := C7_pattern_compilation "a*c" "abc" (by decide) (by decide)
  have h2 := C7_pattern_compilation "a*c" "ab" (by decide) (by decide)
  exact ⟨h1.1, h1.2.1, by decide, h2.2.1, by decide⟩
